import Mathlib

/-!
# KadenzeChorusFlanger: the delay-line engine of `PluginProcessor.cpp`

A shallow embedding of `KadenzeChorusFlangerAudioProcessor` (constructor,
`prepareToPlay`, `processBlock`, `setStateInformation`, `lin_interp`).

The sample loop is embedded twice, statement by statement:

* in exact arithmetic (`processSample`, `processBlock`): `float` and `double`
  values are rationals and no operation rounds. This is the reading under
  which the specification states its arithmetic properties.
* in single precision (`processSampleSingle` and the definitions named
  `...Single`): every operation is rounded as its C++ type requires
  (`toFloat`, 24 bits; `toDouble`, 53 bits), round to nearest, ties to even.
  This is what the compiled code computes, as long as no value overflows or
  is subnormal and the compiler fuses no multiplication with an addition.

Conventions common to both:

* `int` values are `Int`; `(int) x` is truncation toward zero (`truncToInt`),
  and the capacity computed by `prepareToPlay` must fit 32 bits
  (`convertToInt`).
* The two `std::unique_ptr<float[]>` buffers are lists; an access `buf[i]`
  outside `0 ≤ i < length` has no defined behaviour in C++ and is `none` here,
  so every function that touches a buffer returns an `Option`.
* `sin` and `pi` come from the C/JUCE maths library and are taken as a
  parameter (`MathFns`); `juce::jmap`, `XmlElement::hasTagName` and the
  parameter objects' assignment operators are transcribed from the JUCE
  sources.
* `getSampleRate()` is the host-held rate; it is an explicit argument `sr`.
-/

namespace KadenzeChorusFlanger

/-! ## Constants and small helpers -/

/-- The macro `MAX_DELAY_TIME` of `PluginProcessor.h` (line 13). -/
def MAX_DELAY_TIME : Int := 2

/-- The C++ conversion `(int) x` of a floating value: truncation toward zero. -/
def truncToInt (x : ℚ) : Int :=
  if 0 ≤ x then ⌊x⌋ else ⌈x⌉

/-- The maths-library functions used by `processBlock`: the constant
`juce::MathConstants<float>().pi` and the function `sin`. -/
structure MathFns where
  pi : ℚ
  sin : ℚ → ℚ

/-- The function `juce::jmap (value, srcMin, srcMax, dstMin, dstMax)`: the
affine map of the source range onto the target range, not clamped. -/
def jmap (sourceValue sourceRangeMin sourceRangeMax targetRangeMin targetRangeMax : ℚ) : ℚ :=
  targetRangeMin
    + ((targetRangeMax - targetRangeMin) * (sourceValue - sourceRangeMin))
        / (sourceRangeMax - sourceRangeMin)

/-- The method `lin_interp` (lines 377-380). -/
def lin_interp (sample_x0 sample_x1 inPhase : ℚ) : ℚ :=
  (1 - inPhase) * sample_x0 + inPhase * sample_x1

/-- A read `buf[i]` of a heap array through an `int` index. -/
def readAt (buf : List ℚ) (i : Int) : Option ℚ :=
  if 0 ≤ i then buf[i.toNat]? else none

/-- A write `buf[i] = v` of a heap array through an `int` index. -/
def writeAt (buf : List ℚ) (i : Int) (v : ℚ) : Option (List ℚ) :=
  if 0 ≤ i ∧ i.toNat < buf.length then some (buf.set i.toNat v) else none

/-! ## Data model -/

/-- The six host parameters (`mDryWetParameter` ... `mTypeParameter`), by value. -/
structure Params where
  mDryWetParameter : ℚ
  mDepthParameter : ℚ
  mRateParameter : ℚ
  mPhaseOffsetParameter : ℚ
  mFeedbackParameter : ℚ
  mTypeParameter : Int
  deriving DecidableEq

/-- The parameter values set up by the constructor (lines 26-60): the defaults. -/
def Params.default : Params :=
  { mDryWetParameter := 1 / 2
    mDepthParameter := 1 / 2
    mRateParameter := 10
    mPhaseOffsetParameter := 0
    mFeedbackParameter := 1 / 2
    mTypeParameter := 0 }

/-- The ranges the constructor gives the six parameters (lines 26-60). -/
def Params.InRange (p : Params) : Prop :=
  (0 ≤ p.mDryWetParameter ∧ p.mDryWetParameter ≤ 1) ∧
  (0 ≤ p.mDepthParameter ∧ p.mDepthParameter ≤ 1) ∧
  (1 / 10 ≤ p.mRateParameter ∧ p.mRateParameter ≤ 20) ∧
  (0 ≤ p.mPhaseOffsetParameter ∧ p.mPhaseOffsetParameter ≤ 1) ∧
  (0 ≤ p.mFeedbackParameter ∧ p.mFeedbackParameter ≤ 98 / 100) ∧
  (0 ≤ p.mTypeParameter ∧ p.mTypeParameter ≤ 1)

instance (p : Params) : Decidable p.InRange := by
  unfold Params.InRange; infer_instance

/-- The engine state: the private members of the processor that
`prepareToPlay` and `processBlock` read and write. -/
structure Processor where
  mLFOPhase : ℚ
  mFeedbackLeft : ℚ
  mFeedbackRight : ℚ
  mCircularBufferLength : Int
  mCircularBufferWriteHead : Int
  mCircularBufferLeft : List ℚ
  mCircularBufferRight : List ℚ
  deriving DecidableEq

/-- The state the constructor leaves (lines 62-67); the two buffer pointers
are still null, which is the empty list here. -/
def Processor.constructed : Processor :=
  { mLFOPhase := 0
    mFeedbackLeft := 0
    mFeedbackRight := 0
    mCircularBufferLength := 0
    mCircularBufferWriteHead := 0
    mCircularBufferLeft := []
    mCircularBufferRight := [] }

/-! ## `prepareToPlay` -/

/-- The least value of the 32-bit C++ type `int`. -/
def INT_MIN : Int := -2147483648

/-- The greatest value of the 32-bit C++ type `int`. -/
def INT_MAX : Int := 2147483647

/-- The implicit conversion of a `double` to `int` (line 145): truncation
toward zero when the truncated value fits an `int`; the language leaves the
conversion undefined otherwise, which is `none`. -/
def convertToInt (x : ℚ) : Option Int :=
  if INT_MIN ≤ truncToInt x ∧ truncToInt x ≤ INT_MAX then some (truncToInt x) else none

/-- The ways a call of `prepareToPlay` can end: it returns with the members as
in `s`; or `new float[n]` throws `std::bad_array_new_length` (negative `n`),
leaving the members stored so far as in `s`; or the conversion of the capacity
to `int` is undefined. -/
inductive PrepareOutcome where
  | returned (s : Processor)
  | threw (s : Processor)
  | undefinedConversion

/-- The method `prepareToPlay (sampleRate, samplesPerBlock)` (lines 137-160),
statement by statement. The phase and the length are stored before the first
`new float[n]`; with a negative `n` that expression throws and the buffers and
the cursor are left as they were. A zero `n` is a valid allocation of an empty
array. Allocation is taken to succeed for every `n` from 0 to `INT_MAX`. -/
def prepareToPlayOutcome (sampleRate : ℚ) (_samplesPerBlock : Int) (s : Processor) :
    PrepareOutcome :=
  match convertToInt (sampleRate * (MAX_DELAY_TIME : ℚ)) with
  | none => PrepareOutcome.undefinedConversion
  | some len =>
    if len < 0 then
      PrepareOutcome.threw { s with mLFOPhase := 0, mCircularBufferLength := len }
    else
      PrepareOutcome.returned
        { s with
          mLFOPhase := 0
          mCircularBufferLength := len
          mCircularBufferLeft := List.replicate len.toNat 0
          mCircularBufferRight := List.replicate len.toNat 0
          mCircularBufferWriteHead := 0 }

/-- The state `prepareToPlay` leaves when it returns normally, `none` when it
does not return (see `prepareToPlayOutcome`). -/
def prepareToPlay (sampleRate : ℚ) (samplesPerBlock : Int) (s : Processor) :
    Option Processor :=
  match prepareToPlayOutcome sampleRate samplesPerBlock s with
  | PrepareOutcome.returned s' => some s'
  | _ => none

/-! ## `processBlock`, one sample at a time, in exact arithmetic -/

/-- Lines 231-235: the right channel's LFO phase, one conditional wrap. -/
def lfoPhaseRight (mLFOPhase phaseOffset : ℚ) : ℚ :=
  let r := mLFOPhase + phaseOffset
  if r > 1 then r - 1 else r

/-- Lines 241-245: the LFO phase moved forward by `rate / sampleRate`, one
conditional wrap. -/
def advanceLFOPhase (mLFOPhase rate sr : ℚ) : ℚ :=
  let ph := mLFOPhase + rate / sr
  if ph > 1 then ph - 1 else ph

/-- Lines 254-266: the depth-scaled LFO output mapped to a delay time in
seconds, chorus for type 0 and flanger otherwise. -/
def lfoOutMapped (type : Int) (lfoOut : ℚ) : ℚ :=
  if type = 0 then jmap lfoOut (-1) 1 (5 / 1000) (30 / 1000)
  else jmap lfoOut (-1) 1 (1 / 1000) (5 / 1000)

/-- Lines 273-277 (and 280-284) in exact arithmetic: the read head, one
conditional wrap. See `delayReadHeadSingle` for the `float` computation. -/
def delayReadHead (writeHead length : Int) (delayTimeSamples : ℚ) : ℚ :=
  let r := (writeHead : ℚ) - delayTimeSamples
  if r < 0 then r + (length : ℚ) else r

/-- Line 287 (and 296): the lower interpolation index. -/
def readHead_x0 (delayReadHead : ℚ) : Int :=
  truncToInt delayReadHead

/-- Lines 288-293 (and 297-302): the upper interpolation index. -/
def readHead_x1 (x0 length : Int) : Int :=
  if x0 + 1 ≥ length then x0 + 1 - length else x0 + 1

/-- Line 289 (and 298): the fractional part handed to `lin_interp`. -/
def readHeadFloat (delayReadHead : ℚ) : ℚ :=
  delayReadHead - (readHead_x0 delayReadHead : ℚ)

/-- Lines 312-317: the write head after one sample. -/
def nextWriteHead (writeHead length : Int) : Int :=
  if writeHead + 1 ≥ length then 0 else writeHead + 1

/-- The delay in samples of one channel (lines 248-270) from that channel's
raw LFO output. -/
def delayTimeSamples (sr : ℚ) (p : Params) (lfoOut : ℚ) : ℚ :=
  sr * lfoOutMapped p.mTypeParameter (lfoOut * p.mDepthParameter)

/-- Lines 228, 248 and 254-277: the left read head `delayReadHeadLeft` of the
current sample. -/
def delayReadHeadLeft (M : MathFns) (sr : ℚ) (p : Params) (s : Processor) : ℚ :=
  delayReadHead s.mCircularBufferWriteHead s.mCircularBufferLength
    (delayTimeSamples sr p (M.sin (2 * M.pi * s.mLFOPhase)))

/-- Lines 231-238, 249 and 254-284: the right read head `delayReadHeadRight`
of the current sample. -/
def delayReadHeadRight (M : MathFns) (sr : ℚ) (p : Params) (s : Processor) : ℚ :=
  delayReadHead s.mCircularBufferWriteHead s.mCircularBufferLength
    (delayTimeSamples sr p
      (M.sin (2 * M.pi * lfoPhaseRight s.mLFOPhase p.mPhaseOffsetParameter)))

/-- The body of the sample loop of `processBlock` (lines 223-324) for the
input samples `inL`, `inR`: the new state and the two output samples. -/
def processSample (M : MathFns) (sr : ℚ) (p : Params) (s : Processor) (inL inR : ℚ) :
    Option (Processor × (ℚ × ℚ)) := do
  let bufL ← writeAt s.mCircularBufferLeft s.mCircularBufferWriteHead (inL + s.mFeedbackLeft)
  let bufR ← writeAt s.mCircularBufferRight s.mCircularBufferWriteHead (inR + s.mFeedbackRight)
  let phase := advanceLFOPhase s.mLFOPhase p.mRateParameter sr
  let readHeadLeft_x0 := readHead_x0 (delayReadHeadLeft M sr p s)
  let readHeadLeft_x1 := readHead_x1 readHeadLeft_x0 s.mCircularBufferLength
  let readHeadRight_x0 := readHead_x0 (delayReadHeadRight M sr p s)
  let readHeadRight_x1 := readHead_x1 readHeadRight_x0 s.mCircularBufferLength
  let l0 ← readAt bufL readHeadLeft_x0
  let l1 ← readAt bufL readHeadLeft_x1
  let r0 ← readAt bufR readHeadRight_x0
  let r1 ← readAt bufR readHeadRight_x1
  let delay_sample_left := lin_interp l0 l1 (readHeadFloat (delayReadHeadLeft M sr p s))
  let delay_sample_right := lin_interp r0 r1 (readHeadFloat (delayReadHeadRight M sr p s))
  let dryAmount := 1 - p.mDryWetParameter
  let wetAmount := p.mDryWetParameter
  pure
    ({ mLFOPhase := phase
       mFeedbackLeft := delay_sample_left * p.mFeedbackParameter
       mFeedbackRight := delay_sample_right * p.mFeedbackParameter
       mCircularBufferLength := s.mCircularBufferLength
       mCircularBufferWriteHead :=
         nextWriteHead s.mCircularBufferWriteHead s.mCircularBufferLength
       mCircularBufferLeft := bufL
       mCircularBufferRight := bufR },
     (inL * dryAmount + delay_sample_left * wetAmount,
      inR * dryAmount + delay_sample_right * wetAmount))

/-- The method `processBlock` (lines 194-326) on a stereo block given as the
list of its (left, right) samples, with stereo input and output buses (so the
channel-clearing loop of lines 213-214 does nothing): the state after the
block and the block as rewritten in place. -/
def processBlock (M : MathFns) (sr : ℚ) (p : Params) :
    Processor → List (ℚ × ℚ) → Option (Processor × List (ℚ × ℚ))
  | s, [] => some (s, [])
  | s, (inL, inR) :: rest =>
    match processSample M sr p s inL inR with
    | none => none
    | some (s1, out) =>
      match processBlock M sr p s1 rest with
      | none => none
      | some (s2, outs) => some (s2, out :: outs)

/-- A configured engine state for the sample rate `sr`: the capacity is the one
`prepareToPlay` computes and is at least 1, both buffers have that length and
the write cursor is inside them. Buffer contents, LFO phase and feedback
scalars are arbitrary. -/
def Processor.Configured (sr : ℚ) (s : Processor) : Prop :=
  1 ≤ s.mCircularBufferLength ∧
  s.mCircularBufferLength = truncToInt (sr * (MAX_DELAY_TIME : ℚ)) ∧
  (s.mCircularBufferLeft.length : Int) = s.mCircularBufferLength ∧
  (s.mCircularBufferRight.length : Int) = s.mCircularBufferLength ∧
  0 ≤ s.mCircularBufferWriteHead ∧
  s.mCircularBufferWriteHead < s.mCircularBufferLength

/-- The library `sin` takes its values in `[-1, 1]`. -/
def MathFns.SinBounded (M : MathFns) : Prop :=
  ∀ x, -1 ≤ M.sin x ∧ M.sin x ≤ 1

/-! ## The LFO phase as a recurrence -/

/-- The stored LFO phase after `n` samples at a fixed `rate` and sample rate,
starting from the phase 0 that `prepareToPlay` sets: `n` runs of lines 241-245
in exact arithmetic. See `lfoPhaseAfterSingle` for the `float` accumulator. -/
def lfoPhaseAfter (rate sr : ℚ) : Nat → ℚ
  | 0 => 0
  | n + 1 => advanceLFOPhase (lfoPhaseAfter rate sr n) rate sr

/-! ## `setStateInformation` -/

/-- The part of a parsed `juce::XmlElement` that `setStateInformation` looks
at: its tag name and its two attribute readers. -/
structure XmlElement where
  tagName : String
  getDoubleAttribute : String → ℚ
  getIntAttribute : String → Int

/-- The comparison `juce::String::equalsIgnoreCase`: the two strings agree
character by character after the library's `toUpperCase`. That function is
the platform's `towupper` and is taken as a parameter. -/
def equalsIgnoreCase (toUpperCase : Char → Char) (a b : String) : Bool :=
  a.toList.map toUpperCase == b.toList.map toUpperCase

/-- The test `XmlElement::hasTagName`: JUCE implements it as
`tagName.equalsIgnoreCase (possibleTagName)`. -/
def XmlElement.hasTagName (toUpperCase : Char → Char) (x : XmlElement)
    (possibleTagName : String) : Bool :=
  equalsIgnoreCase toUpperCase x.tagName possibleTagName

/-- The assignment `*param = v` of a `juce::AudioParameterFloat` with range
`[lo, hi]`: the value is limited to the range (`jlimit`). -/
def assignFloat (lo hi v : ℚ) : ℚ :=
  if v < lo then lo else if hi < v then hi else v

/-- The assignment `*param = v` of a `juce::AudioParameterInt` with range
`[lo, hi]`: the value is limited to the range. -/
def assignInt (lo hi v : Int) : Int :=
  if v < lo then lo else if hi < v then hi else v

/-- The method `setStateInformation` (lines 354-368) as a function of the
current parameter values and of what `getXmlFromBinary` made of the blob
(`none` is the null pointer it returns for a blob that does not parse). The
method returns `void`: it has no error result. -/
def setStateInformation (toUpperCase : Char → Char) (p : Params)
    (xml : Option XmlElement) : Params :=
  match xml with
  | none => p
  | some x =>
    if x.hasTagName toUpperCase "FlangerChorus" then
      { mDryWetParameter := assignFloat 0 1 (x.getDoubleAttribute "DryWet")
        mDepthParameter := assignFloat 0 1 (x.getDoubleAttribute "Depth")
        mRateParameter := assignFloat (1 / 10) 20 (x.getDoubleAttribute "Rate")
        mPhaseOffsetParameter := assignFloat 0 1 (x.getDoubleAttribute "PhaseOffset")
        mFeedbackParameter := assignFloat 0 (98 / 100) (x.getDoubleAttribute "Feedback")
        mTypeParameter := assignInt 0 1 (x.getIntAttribute "Type") }
    else p

/-! ## The values one sample computes when every access is in bounds -/

/-- The left buffer after the write of lines 224. -/
def writtenLeft (s : Processor) (inL : ℚ) : List ℚ :=
  s.mCircularBufferLeft.set s.mCircularBufferWriteHead.toNat (inL + s.mFeedbackLeft)

/-- The right buffer after the write of line 225. -/
def writtenRight (s : Processor) (inR : ℚ) : List ℚ :=
  s.mCircularBufferRight.set s.mCircularBufferWriteHead.toNat (inR + s.mFeedbackRight)

/-- The value `delay_sample_left` of line 305. -/
def delaySampleLeft (M : MathFns) (sr : ℚ) (p : Params) (s : Processor) (inL : ℚ) : ℚ :=
  lin_interp
    ((writtenLeft s inL).getD (readHead_x0 (delayReadHeadLeft M sr p s)).toNat 0)
    ((writtenLeft s inL).getD
      (readHead_x1 (readHead_x0 (delayReadHeadLeft M sr p s)) s.mCircularBufferLength).toNat 0)
    (readHeadFloat (delayReadHeadLeft M sr p s))

/-- The value `delay_sample_right` of line 306. -/
def delaySampleRight (M : MathFns) (sr : ℚ) (p : Params) (s : Processor) (inR : ℚ) : ℚ :=
  lin_interp
    ((writtenRight s inR).getD (readHead_x0 (delayReadHeadRight M sr p s)).toNat 0)
    ((writtenRight s inR).getD
      (readHead_x1 (readHead_x0 (delayReadHeadRight M sr p s)) s.mCircularBufferLength).toNat 0)
    (readHeadFloat (delayReadHeadRight M sr p s))

/-- The state one sample leaves when every access is in bounds. -/
def sampleState (M : MathFns) (sr : ℚ) (p : Params) (s : Processor) (inL inR : ℚ) :
    Processor :=
  { mLFOPhase := advanceLFOPhase s.mLFOPhase p.mRateParameter sr
    mFeedbackLeft := delaySampleLeft M sr p s inL * p.mFeedbackParameter
    mFeedbackRight := delaySampleRight M sr p s inR * p.mFeedbackParameter
    mCircularBufferLength := s.mCircularBufferLength
    mCircularBufferWriteHead :=
      nextWriteHead s.mCircularBufferWriteHead s.mCircularBufferLength
    mCircularBufferLeft := writtenLeft s inL
    mCircularBufferRight := writtenRight s inR }

/-- The two output samples of one sample when every access is in bounds. -/
def sampleOutput (M : MathFns) (sr : ℚ) (p : Params) (s : Processor) (inL inR : ℚ) : ℚ × ℚ :=
  (inL * (1 - p.mDryWetParameter) + delaySampleLeft M sr p s inL * p.mDryWetParameter,
   inR * (1 - p.mDryWetParameter) + delaySampleRight M sr p s inR * p.mDryWetParameter)

/-- A stand-in maths library for worked examples: `pi` is 355/113 and `sin`
is taken at a zero of the sine (the LFO at rest), so `sin` returns 0. -/
def restingMath : MathFns :=
  { pi := 355 / 113
    sin := fun _ => 0 }

/-- A configured state at a sample rate of 1 Hz (capacity 2) with arbitrary
contents: cursor 1, phase 1/4, feedback scalars 1/2 and 1/3. -/
def busyState : Processor :=
  { mLFOPhase := 1 / 4
    mFeedbackLeft := 1 / 2
    mFeedbackRight := 1 / 3
    mCircularBufferLength := 2
    mCircularBufferWriteHead := 1
    mCircularBufferLeft := [3, 4]
    mCircularBufferRight := [5, 6] }

/-- The state `prepareToPlay` at 1 Hz leaves when called on the constructor's
state: capacity 2, zeroed buffers, everything else 0. -/
def freshAtOne : Processor :=
  { mLFOPhase := 0
    mFeedbackLeft := 0
    mFeedbackRight := 0
    mCircularBufferLength := 2
    mCircularBufferWriteHead := 0
    mCircularBufferLeft := [0, 0]
    mCircularBufferRight := [0, 0] }

/-! ## The fixed delay line (depth 0, feedback 0, chorus) -/

/-- The input block extended by silence before its first sample: `in[j]`,
with `in[j] = 0` for `j < 0`. -/
def inputAt (frames : List (ℚ × ℚ)) (j : Int) : ℚ × ℚ :=
  if j < 0 then (0, 0) else frames.getD j.toNat (0, 0)

/-- The chorus delay at depth 0 in the specification's words: `D = 0.0175 * sr`
samples, the midpoint of the chorus range. -/
def chorusMidDelay (sr : ℚ) : ℚ :=
  175 / 10000 * sr

/-- The output the fixed delay line is said to give at sample index `i`:
`(1 - f) * in[i - ⌈D⌉] + f * in[i - ⌈D⌉ + 1]` with `f = ⌈D⌉ - D`, per channel. -/
def fixedDelayOutput (sr : ℚ) (frames : List (ℚ × ℚ)) (i : Nat) : ℚ × ℚ :=
  let D := chorusMidDelay sr
  let f := (⌈D⌉ : ℚ) - D
  ((1 - f) * (inputAt frames ((i : Int) - ⌈D⌉)).1
      + f * (inputAt frames ((i : Int) - ⌈D⌉ + 1)).1,
   (1 - f) * (inputAt frames ((i : Int) - ⌈D⌉)).2
      + f * (inputAt frames ((i : Int) - ⌈D⌉ + 1)).2)

/-- The state of the delay line after `n` samples of `frames` went through it
with no feedback: the feedback scalars are 0, the cursor is `n mod capacity`,
and for each of the last `capacity` instants `t` (those before the block
count as silence) the slot `t mod capacity` holds the input of instant `t`. -/
def DelayLineHolds (frames : List (ℚ × ℚ)) (n : Nat) (s : Processor) : Prop :=
  s.mFeedbackLeft = 0 ∧ s.mFeedbackRight = 0 ∧
  s.mCircularBufferWriteHead = (n : Int) % s.mCircularBufferLength ∧
  ∀ t : Int, (n : Int) - s.mCircularBufferLength ≤ t → t < (n : Int) →
    s.mCircularBufferLeft.getD (t % s.mCircularBufferLength).toNat 0 = (inputAt frames t).1 ∧
    s.mCircularBufferRight.getD (t % s.mCircularBufferLength).toNat 0 = (inputAt frames t).2

/-- The state `prepareToPlay` at 400 Hz leaves when called on the
constructor's state: capacity 800, zeroed buffers, everything else 0. -/
def freshAt400 : Processor :=
  { mLFOPhase := 0
    mFeedbackLeft := 0
    mFeedbackRight := 0
    mCircularBufferLength := 800
    mCircularBufferWriteHead := 0
    mCircularBufferLeft := List.replicate 800 0
    mCircularBufferRight := List.replicate 800 0 }

/-- The parameter values of the fixed-delay setting: dry/wet 1, depth 0,
feedback 0, chorus; rate and phase offset at their defaults. -/
def fixedDelayParams : Params :=
  { Params.default with
    mDryWetParameter := 1
    mDepthParameter := 0
    mFeedbackParameter := 0
    mTypeParameter := 0 }

/-! ## Bounds of the delay-line reads -/

/-- The range of the mapped delay in samples for an effect type: 5 ms to 30 ms
of samples for chorus (type 0), 1 ms to 5 ms of samples for flanger. -/
def DelayInRange (sr : ℚ) (type : Int) (d : ℚ) : Prop :=
  if type = 0 then 5 / 1000 * sr ≤ d ∧ d ≤ 30 / 1000 * sr
  else 1 / 1000 * sr ≤ d ∧ d ≤ 5 / 1000 * sr

/-- A wrapped read position `r` is in bounds for a buffer of `length` slots:
`r` lies in `[0, length)`, its fractional part lies in `[0, 1)`, and both
interpolation indices computed from it lie in `[0, length)`. -/
def ReadInBounds (length : Int) (r : ℚ) : Prop :=
  (0 ≤ r ∧ r < (length : ℚ)) ∧
  (0 ≤ readHeadFloat r ∧ readHeadFloat r < 1) ∧
  (0 ≤ readHead_x0 r ∧ readHead_x0 r < length) ∧
  (0 ≤ readHead_x1 (readHead_x0 r) length ∧ readHead_x1 (readHead_x0 r) length < length)

/-! ## Rounding to single and double precision -/

/-- Rounding of a rational to the nearest integer, ties to the even one. -/
def roundHalfEven (x : ℚ) : Int :=
  if x - (⌊x⌋ : ℚ) < 1 / 2 then ⌊x⌋
  else if 1 / 2 < x - (⌊x⌋ : ℚ) then ⌊x⌋ + 1
  else if ⌊x⌋ % 2 = 0 then ⌊x⌋ else ⌊x⌋ + 1

/-- Rounding to the nearest binary floating-point number with `prec`
significand bits (IEEE 754 round to nearest, ties to even). The exponent range
is not limited: no overflow and no subnormal numbers, which the values of this
program stay clear of. -/
def roundToPrec (prec : Nat) (x : ℚ) : ℚ :=
  if x = 0 then 0
  else
    (roundHalfEven (x / 2 ^ (Int.log 2 |x| - ((prec : Int) - 1))) : ℚ)
      * 2 ^ (Int.log 2 |x| - ((prec : Int) - 1))

/-- The value a C++ `float` holds after an operation whose exact result is
`x`: 24 significand bits. -/
def toFloat (x : ℚ) : ℚ :=
  roundToPrec 24 x

/-- The value a C++ `double` holds after an operation whose exact result is
`x`: 53 significand bits. -/
def toDouble (x : ℚ) : ℚ :=
  roundToPrec 53 x

/-! ## The sample loop in single precision

The same statements of `processBlock` with the rounding the source's types
impose: every `float` operation is rounded to 24 bits, the two `double`
operations (`rate / getSampleRate()` with the sum it feeds, and
`getSampleRate() * lfoOutMapped`) to 53 bits before the result is stored in a
`float`. The parameter values and the input samples are `float` values. -/

/-- Lines 231-235 in `float`. -/
def lfoPhaseRightSingle (mLFOPhase phaseOffset : ℚ) : ℚ :=
  let r := toFloat (mLFOPhase + phaseOffset)
  if r > 1 then toFloat (r - 1) else r

/-- Lines 241-245 with their types: the quotient and the sum are `double`
operations, the sum is stored in the `float` member, and the wrap is a `float`
subtraction. The sample rate is not 0 (the quotient is infinite there). -/
def advanceLFOPhaseSingle (mLFOPhase rate sr : ℚ) : ℚ :=
  let ph := toFloat (toDouble (mLFOPhase + toDouble (rate / sr)))
  if ph > 1 then toFloat (ph - 1) else ph

/-- The stored `float` LFO phase after `n` samples at a fixed `rate` and
sample rate, starting from 0. -/
def lfoPhaseAfterSingle (rate sr : ℚ) : Nat → ℚ
  | 0 => 0
  | n + 1 => advanceLFOPhaseSingle (lfoPhaseAfterSingle rate sr n) rate sr

/-- The function `juce::jmap` instantiated at `float`. -/
def jmapSingle (sourceValue sourceRangeMin sourceRangeMax targetRangeMin targetRangeMax : ℚ) :
    ℚ :=
  toFloat (targetRangeMin
    + toFloat (toFloat (toFloat (targetRangeMax - targetRangeMin)
          * toFloat (sourceValue - sourceRangeMin))
        / toFloat (sourceRangeMax - sourceRangeMin)))

/-- Lines 254-266 in `float`; the literals `0.005f`, `0.030f` and `0.001f` are
the `float` values nearest to the decimals. -/
def lfoOutMappedSingle (type : Int) (lfoOut : ℚ) : ℚ :=
  if type = 0 then jmapSingle lfoOut (-1) 1 (toFloat (5 / 1000)) (toFloat (30 / 1000))
  else jmapSingle lfoOut (-1) 1 (toFloat (1 / 1000)) (toFloat (5 / 1000))

/-- Lines 248-270 with their types: the depth scaling is a `float` product,
`getSampleRate() * lfoOutMapped` a `double` product stored in a `float`. -/
def delayTimeSamplesSingle (sr : ℚ) (p : Params) (lfoOut : ℚ) : ℚ :=
  toFloat (toDouble
    (sr * lfoOutMappedSingle p.mTypeParameter (toFloat (lfoOut * p.mDepthParameter))))

/-- Lines 273-277 (and 280-284) in `float`: the two `int` members are
converted to `float` for the subtraction and the addition. -/
def delayReadHeadSingle (writeHead length : Int) (delayTimeSamples : ℚ) : ℚ :=
  let r := toFloat (toFloat (writeHead : ℚ) - delayTimeSamples)
  if r < 0 then toFloat (r + toFloat (length : ℚ)) else r

/-- Line 289 (and 298) in `float`. -/
def readHeadFloatSingle (delayReadHead : ℚ) : ℚ :=
  toFloat (delayReadHead - toFloat (readHead_x0 delayReadHead : ℚ))

/-- The method `lin_interp` (lines 377-380) in `float`. -/
def lin_interpSingle (sample_x0 sample_x1 inPhase : ℚ) : ℚ :=
  toFloat (toFloat (toFloat (1 - inPhase) * sample_x0) + toFloat (inPhase * sample_x1))

/-- The left read head `delayReadHeadLeft` of the current sample, in `float`. -/
def delayReadHeadLeftSingle (M : MathFns) (sr : ℚ) (p : Params) (s : Processor) : ℚ :=
  delayReadHeadSingle s.mCircularBufferWriteHead s.mCircularBufferLength
    (delayTimeSamplesSingle sr p
      (toFloat (M.sin (toFloat (toFloat (2 * M.pi) * s.mLFOPhase)))))

/-- The right read head `delayReadHeadRight` of the current sample, in `float`. -/
def delayReadHeadRightSingle (M : MathFns) (sr : ℚ) (p : Params) (s : Processor) : ℚ :=
  delayReadHeadSingle s.mCircularBufferWriteHead s.mCircularBufferLength
    (delayTimeSamplesSingle sr p
      (toFloat (M.sin (toFloat (toFloat (2 * M.pi)
        * lfoPhaseRightSingle s.mLFOPhase p.mPhaseOffsetParameter)))))

/-- The body of the sample loop of `processBlock` (lines 223-324) in single
precision: the new state and the two output samples, `none` when a buffer
access is out of bounds. -/
def processSampleSingle (M : MathFns) (sr : ℚ) (p : Params) (s : Processor) (inL inR : ℚ) :
    Option (Processor × (ℚ × ℚ)) := do
  let bufL ← writeAt s.mCircularBufferLeft s.mCircularBufferWriteHead
    (toFloat (inL + s.mFeedbackLeft))
  let bufR ← writeAt s.mCircularBufferRight s.mCircularBufferWriteHead
    (toFloat (inR + s.mFeedbackRight))
  let phase := advanceLFOPhaseSingle s.mLFOPhase p.mRateParameter sr
  let readHeadLeft_x0 := readHead_x0 (delayReadHeadLeftSingle M sr p s)
  let readHeadLeft_x1 := readHead_x1 readHeadLeft_x0 s.mCircularBufferLength
  let readHeadRight_x0 := readHead_x0 (delayReadHeadRightSingle M sr p s)
  let readHeadRight_x1 := readHead_x1 readHeadRight_x0 s.mCircularBufferLength
  let l0 ← readAt bufL readHeadLeft_x0
  let l1 ← readAt bufL readHeadLeft_x1
  let r0 ← readAt bufR readHeadRight_x0
  let r1 ← readAt bufR readHeadRight_x1
  let delay_sample_left :=
    lin_interpSingle l0 l1 (readHeadFloatSingle (delayReadHeadLeftSingle M sr p s))
  let delay_sample_right :=
    lin_interpSingle r0 r1 (readHeadFloatSingle (delayReadHeadRightSingle M sr p s))
  let dryAmount := toFloat (1 - p.mDryWetParameter)
  let wetAmount := p.mDryWetParameter
  pure
    ({ mLFOPhase := phase
       mFeedbackLeft := toFloat (delay_sample_left * p.mFeedbackParameter)
       mFeedbackRight := toFloat (delay_sample_right * p.mFeedbackParameter)
       mCircularBufferLength := s.mCircularBufferLength
       mCircularBufferWriteHead :=
         nextWriteHead s.mCircularBufferWriteHead s.mCircularBufferLength
       mCircularBufferLeft := bufL
       mCircularBufferRight := bufR },
     (toFloat (toFloat (inL * dryAmount) + toFloat (delay_sample_left * wetAmount)),
      toFloat (toFloat (inR * dryAmount) + toFloat (delay_sample_right * wetAmount))))

/-- The flanger setting with the LFO depth at 0; the other parameters at their
defaults. -/
def flangerAtRest : Params :=
  { Params.default with
    mDepthParameter := 0
    mTypeParameter := 1 }

/-- The engine configured at 16667 Hz (capacity 33334) after 50 samples of
silence: cursor 50, buffers still zero, feedback scalars 0, phase `ph`. -/
def silentAt50 (ph : ℚ) : Processor :=
  { mLFOPhase := ph
    mFeedbackLeft := 0
    mFeedbackRight := 0
    mCircularBufferLength := 33334
    mCircularBufferWriteHead := 50
    mCircularBufferLeft := List.replicate 33334 0
    mCircularBufferRight := List.replicate 33334 0 }

/-- The engine configured at 33143 Hz (capacity 66286) after an impulse
`(a, b)` and 579 samples of silence went through the fixed delay line: cursor
580, the impulse in slot 0, feedback scalars 0, phase `ph`. -/
def impulseAt580 (a b ph : ℚ) : Processor :=
  { mLFOPhase := ph
    mFeedbackLeft := 0
    mFeedbackRight := 0
    mCircularBufferLength := 66286
    mCircularBufferWriteHead := 580
    mCircularBufferLeft := a :: List.replicate 66285 0
    mCircularBufferRight := b :: List.replicate 66285 0 }

/-- The method `processBlock` (lines 194-326) in single precision, on a stereo
block given as the list of its (left, right) samples: `none` as soon as one
sample's buffer access is out of bounds. -/
def processBlockSingle (M : MathFns) (sr : ℚ) (p : Params) :
    Processor → List (ℚ × ℚ) → Option (Processor × List (ℚ × ℚ))
  | s, [] => some (s, [])
  | s, (inL, inR) :: rest =>
    match processSampleSingle M sr p s inL inR with
    | none => none
    | some (s1, out) =>
      match processBlockSingle M sr p s1 rest with
      | none => none
      | some (s2, outs) => some (s2, out :: outs)

/-- A state whose capacity is `length` and whose two buffers have that many
slots. -/
def Processor.HasCapacity (length : Int) (s : Processor) : Prop :=
  s.mCircularBufferLength = length ∧
  (s.mCircularBufferLeft.length : Int) = length ∧
  (s.mCircularBufferRight.length : Int) = length

/-- The state `prepareToPlay` at 16667 Hz leaves when called on the
constructor's state: capacity 33334, zeroed buffers, everything else 0. -/
def freshAt16667 : Processor :=
  { mLFOPhase := 0
    mFeedbackLeft := 0
    mFeedbackRight := 0
    mCircularBufferLength := 33334
    mCircularBufferWriteHead := 0
    mCircularBufferLeft := List.replicate 33334 0
    mCircularBufferRight := List.replicate 33334 0 }

/-- The state `prepareToPlay` at 33143 Hz leaves when called on the
constructor's state: capacity 66286, zeroed buffers, everything else 0. -/
def freshAt33143 : Processor :=
  { mLFOPhase := 0
    mFeedbackLeft := 0
    mFeedbackRight := 0
    mCircularBufferLength := 66286
    mCircularBufferWriteHead := 0
    mCircularBufferLeft := List.replicate 66286 0
    mCircularBufferRight := List.replicate 66286 0 }

/-! ## Basic facts -/

theorem truncToInt_of_nonneg {x : ℚ} (h : 0 ≤ x) : truncToInt x = ⌊x⌋ := by
  simp [truncToInt, h]

theorem truncToInt_nonneg {x : ℚ} (h : 0 ≤ x) : 0 ≤ truncToInt x := by
  rw [truncToInt_of_nonneg h]; exact Int.floor_nonneg.mpr h

theorem truncToInt_natCast (n : Nat) : truncToInt (n : ℚ) = (n : Int) := by
  rw [truncToInt_of_nonneg (by positivity)]
  exact_mod_cast Int.floor_natCast (α := ℚ) n

theorem half_le_of_one_le_floor {sr : ℚ} (h : 1 ≤ ⌊sr * 2⌋) : 1 / 2 ≤ sr := by
  have h1 : ((1 : Int) : ℚ) ≤ sr * 2 := Int.le_floor.mp h
  push_cast at h1
  linarith

theorem capacity_eq_floor {sr : ℚ} (h : 1 ≤ ⌊sr * 2⌋) :
    truncToInt (sr * (MAX_DELAY_TIME : ℚ)) = ⌊sr * 2⌋ := by
  have h2 := half_le_of_one_le_floor h
  have : (MAX_DELAY_TIME : ℚ) = 2 := by simp [MAX_DELAY_TIME]
  rw [this, truncToInt_of_nonneg (by linarith)]

/-- The call returns normally exactly when the truncated capacity lies between
0 and `INT_MAX`, and then leaves the state built from that capacity. -/
theorem prepareToPlay_eq_some_iff {sr : ℚ} {spb : Int} {s s' : Processor} :
    prepareToPlay sr spb s = some s' ↔
      0 ≤ truncToInt (sr * (MAX_DELAY_TIME : ℚ)) ∧
      truncToInt (sr * (MAX_DELAY_TIME : ℚ)) ≤ INT_MAX ∧
      s' = { s with
        mLFOPhase := 0
        mCircularBufferLength := truncToInt (sr * (MAX_DELAY_TIME : ℚ))
        mCircularBufferLeft :=
          List.replicate (truncToInt (sr * (MAX_DELAY_TIME : ℚ))).toNat 0
        mCircularBufferRight :=
          List.replicate (truncToInt (sr * (MAX_DELAY_TIME : ℚ))).toNat 0
        mCircularBufferWriteHead := 0 } := by
  unfold prepareToPlay prepareToPlayOutcome convertToInt
  by_cases hr : INT_MIN ≤ truncToInt (sr * (MAX_DELAY_TIME : ℚ)) ∧
      truncToInt (sr * (MAX_DELAY_TIME : ℚ)) ≤ INT_MAX
  · rw [if_pos hr]
    by_cases hneg : truncToInt (sr * (MAX_DELAY_TIME : ℚ)) < 0
    · simp only [hneg, if_true]
      constructor
      · intro h; cases h
      · rintro ⟨h0, _, _⟩; omega
    · simp only [hneg, if_false]
      constructor
      · intro h
        exact ⟨by omega, hr.2, (Option.some.inj h).symm⟩
      · rintro ⟨_, _, h⟩
        rw [h]
  · rw [if_neg hr]
    constructor
    · intro h; cases h
    · rintro ⟨h0, h1, _⟩
      exact absurd ⟨by unfold INT_MIN; omega, h1⟩ hr

theorem prepareToPlay_of_trunc {sr : ℚ} (spb : Int) (s : Processor)
    (h0 : 0 ≤ truncToInt (sr * (MAX_DELAY_TIME : ℚ)))
    (h1 : truncToInt (sr * (MAX_DELAY_TIME : ℚ)) ≤ INT_MAX) :
    prepareToPlay sr spb s = some
      { s with
        mLFOPhase := 0
        mCircularBufferLength := truncToInt (sr * (MAX_DELAY_TIME : ℚ))
        mCircularBufferLeft :=
          List.replicate (truncToInt (sr * (MAX_DELAY_TIME : ℚ))).toNat 0
        mCircularBufferRight :=
          List.replicate (truncToInt (sr * (MAX_DELAY_TIME : ℚ))).toNat 0
        mCircularBufferWriteHead := 0 } :=
  prepareToPlay_eq_some_iff.mpr ⟨h0, h1, rfl⟩

/-! ## `lin_interp` -/

/-- C8: linear interpolation is exact at the end points, `lin_interp a b 0 = a`
and `lin_interp a b 1 = b`, for all sample values `a` and `b`. -/
theorem lin_interp_endpoints (a b : ℚ) :
    lin_interp a b 0 = a ∧ lin_interp a b 1 = b := by
  constructor <;> simp [lin_interp]

/-! ## `prepareToPlay` -/

theorem trunc_capacity_of_floor {sr : ℚ} (h : 1 ≤ ⌊sr * 2⌋) (hmax : ⌊sr * 2⌋ ≤ 2147483647) :
    0 ≤ truncToInt (sr * (MAX_DELAY_TIME : ℚ)) ∧
      truncToInt (sr * (MAX_DELAY_TIME : ℚ)) ≤ INT_MAX := by
  rw [capacity_eq_floor h]
  unfold INT_MAX
  omega

theorem prepareToPlay_of_capacity {sr : ℚ} (spb : Int) (s : Processor) (h : 1 ≤ ⌊sr * 2⌋)
    (hmax : ⌊sr * 2⌋ ≤ 2147483647) :
    prepareToPlay sr spb s = some
      { s with
        mLFOPhase := 0
        mCircularBufferLength := ⌊sr * 2⌋
        mCircularBufferLeft := List.replicate ⌊sr * 2⌋.toNat 0
        mCircularBufferRight := List.replicate ⌊sr * 2⌋.toNat 0
        mCircularBufferWriteHead := 0 } := by
  have ht := trunc_capacity_of_floor h hmax
  have hprep := prepareToPlay_of_trunc spb s ht.1 ht.2
  rw [capacity_eq_floor h] at hprep
  exact hprep

/-- C5 (counterexample): at a sample rate of 2000000000 Hz the capacity
`⌊sr * 2⌋ = 4000000000` is at least 1 but does not fit an `int`: the call does
not return with that capacity. -/
theorem prepareToPlay_capacity_overflow :
    (1 : Int) ≤ ⌊(2000000000 : ℚ) * 2⌋ ∧
    prepareToPlayOutcome 2000000000 512 Processor.constructed
      = PrepareOutcome.undefinedConversion ∧
    prepareToPlay 2000000000 512 Processor.constructed = none := by
  have ht : truncToInt ((2000000000 : ℚ) * (MAX_DELAY_TIME : ℚ)) = 4000000000 := by
    have h : (2000000000 : ℚ) * (MAX_DELAY_TIME : ℚ) = ((4000000000 : Nat) : ℚ) := by
      norm_num [MAX_DELAY_TIME]
    rw [h, truncToInt_natCast]; rfl
  have ho : prepareToPlayOutcome 2000000000 512 Processor.constructed
      = PrepareOutcome.undefinedConversion := by
    unfold prepareToPlayOutcome convertToInt
    rw [ht, if_neg (by unfold INT_MIN INT_MAX; omega)]
  refine ⟨by rw [Int.le_floor]; norm_num, ho, ?_⟩
  unfold prepareToPlay
  rw [ho]

/-- C5 (amended): for every sample rate with `1 ≤ ⌊sr * 2⌋ ≤ 2147483647` and
every prior state, `prepareToPlay` returns a state whose capacity is
`⌊sr * MAX_DELAY_TIME⌋` with `MAX_DELAY_TIME = 2`, whose two buffers have
exactly that length and hold only zeros, whose write cursor is 0 and whose LFO
phase is 0. -/
theorem prepareToPlay_postcondition (sr : ℚ) (samplesPerBlock : Int) (s : Processor)
    (h : 1 ≤ ⌊sr * 2⌋) (hmax : ⌊sr * 2⌋ ≤ 2147483647) :
    ∃ s', prepareToPlay sr samplesPerBlock s = some s' ∧
      MAX_DELAY_TIME = 2 ∧
      s'.mCircularBufferLength = ⌊sr * (MAX_DELAY_TIME : ℚ)⌋ ∧
      (s'.mCircularBufferLeft.length : Int) = s'.mCircularBufferLength ∧
      (s'.mCircularBufferRight.length : Int) = s'.mCircularBufferLength ∧
      (∀ x ∈ s'.mCircularBufferLeft, x = 0) ∧
      (∀ x ∈ s'.mCircularBufferRight, x = 0) ∧
      s'.mCircularBufferWriteHead = 0 ∧
      s'.mLFOPhase = 0 := by
  have hM : (MAX_DELAY_TIME : ℚ) = 2 := by simp [MAX_DELAY_TIME]
  have hnat : ((⌊sr * 2⌋.toNat : Nat) : Int) = ⌊sr * 2⌋ := Int.toNat_of_nonneg (by omega)
  have hprep := prepareToPlay_of_capacity samplesPerBlock s h hmax
  refine ⟨_, hprep, rfl, ?_, ?_, ?_, ?_, ?_, rfl, rfl⟩
  · simp [hM]
  · simp [hnat]
  · simp [hnat]
  · intro x hx; exact List.eq_of_mem_replicate hx
  · intro x hx; exact List.eq_of_mem_replicate hx

/-- A sample rate satisfying the hypotheses of `prepareToPlay_postcondition`:
44100 Hz. -/
theorem prepareToPlay_postcondition_witness :
    ∃ s', prepareToPlay 44100 512 Processor.constructed = some s' ∧
      MAX_DELAY_TIME = 2 ∧
      s'.mCircularBufferLength = ⌊(44100 : ℚ) * (MAX_DELAY_TIME : ℚ)⌋ ∧
      (s'.mCircularBufferLeft.length : Int) = s'.mCircularBufferLength ∧
      (s'.mCircularBufferRight.length : Int) = s'.mCircularBufferLength ∧
      (∀ x ∈ s'.mCircularBufferLeft, x = 0) ∧
      (∀ x ∈ s'.mCircularBufferRight, x = 0) ∧
      s'.mCircularBufferWriteHead = 0 ∧
      s'.mLFOPhase = 0 :=
  prepareToPlay_postcondition 44100 512 Processor.constructed
    (by rw [Int.le_floor]; norm_num)
    (by
      have h : ⌊(44100 : ℚ) * 2⌋ = 88200 := by rw [Int.floor_eq_iff]; norm_num
      rw [h]; decide)

/-- C6 (counterexample): at sample rate 0 the capacity truncates to zero and
`prepareToPlay` nevertheless returns normally, installing two zero-length
buffers with capacity 0. -/
theorem prepareToPlay_accepts_zero_capacity :
    ∃ s', prepareToPlay 0 512 Processor.constructed = some s' ∧
      s'.mCircularBufferLength = 0 ∧
      s'.mCircularBufferLeft = [] ∧ s'.mCircularBufferRight = [] := by
  have ht : truncToInt ((0 : ℚ) * (MAX_DELAY_TIME : ℚ)) = 0 := by simp [truncToInt]
  have hprep := @prepareToPlay_of_trunc 0 512 Processor.constructed
    (by rw [ht]) (by rw [ht]; decide)
  rw [ht] at hprep
  exact ⟨_, hprep, rfl, rfl, rfl⟩

/-- C6 (amended): `prepareToPlay` rejects a degenerate rate only when the
capacity `sr * MAX_DELAY_TIME` truncates to a negative number: then
`new float[n]` throws, the call does not return and the buffers and the cursor
stay as they were. When the capacity truncates to zero nothing is checked: the
call returns normally with capacity 0, two zero-length buffers, cursor 0 and
phase 0. Every accepted configuration therefore has capacity `≥ 0`. -/
theorem prepareToPlay_degenerate (sr : ℚ) (samplesPerBlock : Int) (s : Processor) :
    (truncToInt (sr * (MAX_DELAY_TIME : ℚ)) < 0 →
      prepareToPlay sr samplesPerBlock s = none ∧
      (INT_MIN ≤ truncToInt (sr * (MAX_DELAY_TIME : ℚ)) →
        prepareToPlayOutcome sr samplesPerBlock s = PrepareOutcome.threw
          { s with
            mLFOPhase := 0
            mCircularBufferLength := truncToInt (sr * (MAX_DELAY_TIME : ℚ)) })) ∧
    (truncToInt (sr * (MAX_DELAY_TIME : ℚ)) = 0 →
      prepareToPlay sr samplesPerBlock s = some
        { s with
          mLFOPhase := 0
          mCircularBufferLength := 0
          mCircularBufferLeft := []
          mCircularBufferRight := []
          mCircularBufferWriteHead := 0 }) ∧
    (∀ s', prepareToPlay sr samplesPerBlock s = some s' → 0 ≤ s'.mCircularBufferLength) := by
  refine ⟨?_, ?_, ?_⟩
  · intro hneg
    constructor
    · cases hp : prepareToPlay sr samplesPerBlock s with
      | none => rfl
      | some s' =>
        have := (prepareToPlay_eq_some_iff.mp hp).1
        omega
    · intro hmin
      unfold prepareToPlayOutcome convertToInt
      rw [if_pos ⟨hmin, by unfold INT_MAX; omega⟩]
      simp only [hneg, if_true]
  · intro h0
    have hprep := prepareToPlay_of_trunc samplesPerBlock s (by rw [h0]) (by rw [h0]; decide)
    rw [h0] at hprep
    exact hprep
  · intro s' hp
    obtain ⟨h0, _, hs⟩ := prepareToPlay_eq_some_iff.mp hp
    rw [hs]
    exact h0

/-- Both degenerate cases: at -1 Hz the capacity is -2 and the allocation
throws with the old (empty) buffers in place; at a quarter of a hertz the
capacity truncates to zero and empty buffers are installed. -/
theorem prepareToPlay_degenerate_witness :
    (prepareToPlay (-1) 512 Processor.constructed = none ∧
      prepareToPlayOutcome (-1) 512 Processor.constructed = PrepareOutcome.threw
        { Processor.constructed with
          mLFOPhase := 0
          mCircularBufferLength := truncToInt ((-1 : ℚ) * (MAX_DELAY_TIME : ℚ)) }) ∧
    prepareToPlay (1 / 4) 512 Processor.constructed = some
      { Processor.constructed with
        mLFOPhase := 0
        mCircularBufferLength := 0
        mCircularBufferLeft := []
        mCircularBufferRight := []
        mCircularBufferWriteHead := 0 } := by
  have hneg : truncToInt ((-1 : ℚ) * (MAX_DELAY_TIME : ℚ)) = -2 := by
    have h : (-1 : ℚ) * (MAX_DELAY_TIME : ℚ) = ((-2 : Int) : ℚ) := by
      norm_num [MAX_DELAY_TIME]
    rw [h]
    unfold truncToInt
    rw [if_neg (by norm_num), Int.ceil_intCast]
  have hzero : truncToInt ((1 / 4 : ℚ) * (MAX_DELAY_TIME : ℚ)) = 0 := by
    rw [truncToInt_of_nonneg (by norm_num [MAX_DELAY_TIME]), Int.floor_eq_iff]
    norm_num [MAX_DELAY_TIME]
  have hA := (prepareToPlay_degenerate (-1) 512 Processor.constructed).1
    (by rw [hneg]; decide)
  exact ⟨⟨hA.1, hA.2 (by rw [hneg]; decide)⟩,
    (prepareToPlay_degenerate (1 / 4) 512 Processor.constructed).2.1 hzero⟩

/-! ## `setStateInformation` -/

/-- C9 (counterexample): a blob whose container tag is "flangerchorus", which
is not "FlangerChorus", passes the tag test (ASCII upper-casing) and is
applied: dry/wet goes from the default 1/2 to 1 and the type from 0 to 1. -/
theorem setStateInformation_applies_other_case :
    "flangerchorus" ≠ "FlangerChorus" ∧
    Params.default.mDryWetParameter = 1 / 2 ∧
    (setStateInformation Char.toUpper Params.default
      (some ⟨"flangerchorus", fun _ => 1, fun _ => 1⟩)).mDryWetParameter = 1 ∧
    (setStateInformation Char.toUpper Params.default
      (some ⟨"flangerchorus", fun _ => 1, fun _ => 1⟩)).mTypeParameter = 1 ∧
    setStateInformation Char.toUpper Params.default
      (some ⟨"flangerchorus", fun _ => 1, fun _ => 1⟩) ≠ Params.default := by
  have ht : XmlElement.hasTagName Char.toUpper ⟨"flangerchorus", fun _ => 1, fun _ => 1⟩
      "FlangerChorus" = true := by decide
  have hd : (setStateInformation Char.toUpper Params.default
      (some ⟨"flangerchorus", fun _ => 1, fun _ => 1⟩)).mDryWetParameter = 1 := by
    simp only [setStateInformation, ht, if_true]
    norm_num [assignFloat]
  have hty : (setStateInformation Char.toUpper Params.default
      (some ⟨"flangerchorus", fun _ => 1, fun _ => 1⟩)).mTypeParameter = 1 := by
    simp only [setStateInformation, ht, if_true]
    decide
  refine ⟨by decide, rfl, hd, hty, ?_⟩
  intro h
  rw [h] at hty
  exact absurd hty (by decide)

/-- C9 (amended): when the blob does not parse (`none`) or the tag of the
parsed element differs from "FlangerChorus" even after upper-casing both
(JUCE's `hasTagName` ignores case), `setStateInformation` returns the six
parameter values unchanged; the function is total and has no error result. -/
theorem setStateInformation_bad_blob (toUpperCase : Char → Char) (p : Params)
    (xml : Option XmlElement)
    (h : xml = none ∨ ∃ x, xml = some x ∧
      x.tagName.toList.map toUpperCase ≠ "FlangerChorus".toList.map toUpperCase) :
    setStateInformation toUpperCase p xml = p := by
  rcases h with h | ⟨x, hx, ht⟩
  · subst h; rfl
  · subst hx
    have hf : x.hasTagName toUpperCase "FlangerChorus" = false := by
      simp only [XmlElement.hasTagName, equalsIgnoreCase, beq_eq_false_iff_ne]
      exact ht
    simp [setStateInformation, hf]

/-- A blob tagged "Delay", offering other values, leaves the defaults alone. -/
theorem setStateInformation_bad_blob_witness :
    setStateInformation Char.toUpper Params.default
      (some ⟨"Delay", fun _ => 1, fun _ => 1⟩) = Params.default :=
  setStateInformation_bad_blob Char.toUpper Params.default
    (some ⟨"Delay", fun _ => 1, fun _ => 1⟩)
    (Or.inr ⟨_, rfl, by decide⟩)

/-! ## The LFO phase -/

theorem advanceLFOPhase_le_one {ph rate sr : ℚ} (hp : ph ≤ 1) (hr : rate / sr ≤ 1) :
    advanceLFOPhase ph rate sr ≤ 1 := by
  unfold advanceLFOPhase
  simp only
  split_ifs with h <;> linarith

theorem advanceLFOPhase_nonneg {ph rate sr : ℚ} (hp : 0 ≤ ph) (hr : 0 ≤ rate / sr) :
    0 ≤ advanceLFOPhase ph rate sr := by
  unfold advanceLFOPhase
  simp only
  split_ifs with h <;> linarith

theorem lfoPhaseAfter_le_one {rate sr : ℚ} (hr : rate / sr ≤ 1) (n : Nat) :
    lfoPhaseAfter rate sr n ≤ 1 := by
  induction n with
  | zero => simp [lfoPhaseAfter]
  | succ k ih => exact advanceLFOPhase_le_one ih hr

theorem lfoPhaseAfter_nonneg {rate sr : ℚ} (hr : 0 ≤ rate / sr) (n : Nat) :
    0 ≤ lfoPhaseAfter rate sr n := by
  induction n with
  | zero => simp [lfoPhaseAfter]
  | succ k ih => exact advanceLFOPhase_nonneg ih hr

/-- While `n * (rate / sr)` has not passed 1 the phase has never wrapped. -/
theorem lfoPhaseAfter_eq_mul {rate sr : ℚ} (hr : 0 ≤ rate / sr) (n : Nat)
    (h : (n : ℚ) * (rate / sr) ≤ 1) : lfoPhaseAfter rate sr n = (n : ℚ) * (rate / sr) := by
  induction n with
  | zero => simp [lfoPhaseAfter]
  | succ k ih =>
    have hk : (k : ℚ) * (rate / sr) ≤ 1 := by
      push_cast at h; nlinarith
    have hle : ¬ ((k : ℚ) * (rate / sr) + rate / sr > 1) := by
      push_cast at h; intro hc; nlinarith
    simp only [lfoPhaseAfter, advanceLFOPhase, ih hk, hle, if_false]
    push_cast; ring

theorem lfoPhaseRight_le_one {ph off : ℚ} (hp : ph ≤ 1) (ho : off ≤ 1) :
    lfoPhaseRight ph off ≤ 1 := by
  unfold lfoPhaseRight
  simp only
  split_ifs with h <;> linarith

theorem lfoPhaseRight_nonneg {ph off : ℚ} (hp : 0 ≤ ph) (ho : 0 ≤ off) :
    0 ≤ lfoPhaseRight ph off := by
  unfold lfoPhaseRight
  simp only
  split_ifs with h <;> linarith

/-- C10 (refutation): no phase reachable from 0 at a ratio of at most 1 and no
offset in `[0, 1]` make the sum exceed 2 or leave the right-channel phase
above 1 after the single conditional subtraction. -/
theorem no_right_phase_under_wrap :
    ¬ ∃ (rate sr off : ℚ) (n : Nat), rate / sr ≤ 1 ∧ 0 ≤ off ∧ off ≤ 1 ∧
        (lfoPhaseAfter rate sr n + off > 2 ∨
          lfoPhaseRight (lfoPhaseAfter rate sr n) off > 1) := by
  rintro ⟨rate, sr, off, n, hr, _, ho, h⟩
  have hp := lfoPhaseAfter_le_one hr n
  rcases h with h | h
  · linarith
  · have := lfoPhaseRight_le_one hp ho
    linarith

/-- C10 (amended): for every phase reachable from 0 at a ratio in `[0, 1]` and
every offset in `[0, 1]`, the sum of phase and offset is at most 2 and the
right-channel phase handed to `sin` lies in `[0, 1]`. -/
theorem right_phase_in_closed_unit (rate sr off : ℚ) (n : Nat)
    (h0 : 0 ≤ rate / sr) (h1 : rate / sr ≤ 1) (ho0 : 0 ≤ off) (ho1 : off ≤ 1) :
    lfoPhaseAfter rate sr n + off ≤ 2 ∧
    0 ≤ lfoPhaseRight (lfoPhaseAfter rate sr n) off ∧
    lfoPhaseRight (lfoPhaseAfter rate sr n) off ≤ 1 := by
  have hp := lfoPhaseAfter_le_one h1 n
  have hn := lfoPhaseAfter_nonneg h0 n
  exact ⟨by linarith, lfoPhaseRight_nonneg hn ho0, lfoPhaseRight_le_one hp ho1⟩

/-- The extreme case: stored phase 1 (after 4410 samples at 10 Hz, 44100 Hz)
with phase offset 1 gives the sum 2 and the right-channel phase 1. -/
theorem right_phase_in_closed_unit_witness :
    lfoPhaseAfter 10 44100 4410 + 1 ≤ 2 ∧
    0 ≤ lfoPhaseRight (lfoPhaseAfter 10 44100 4410) 1 ∧
    lfoPhaseRight (lfoPhaseAfter 10 44100 4410) 1 ≤ 1 :=
  right_phase_in_closed_unit 10 44100 1 4410 (by norm_num) (by norm_num)
    (by norm_num) (by norm_num)

/-! ## Index bounds of the delay line -/

theorem readAt_of_lt {buf : List ℚ} {i : Int} (h0 : 0 ≤ i) (h1 : i < (buf.length : Int)) :
    readAt buf i = some (buf.getD i.toNat 0) := by
  have hlt : i.toNat < buf.length := (Int.toNat_lt h0).mpr h1
  simp [readAt, h0, List.getD_eq_getElem?_getD, List.getElem?_eq_getElem hlt]

theorem writeAt_of_lt {buf : List ℚ} {i : Int} (v : ℚ) (h0 : 0 ≤ i)
    (h1 : i < (buf.length : Int)) : writeAt buf i v = some (buf.set i.toNat v) := by
  have hlt : i.toNat < buf.length := (Int.toNat_lt h0).mpr h1
  simp [writeAt, h0, hlt]

theorem getD_set (buf : List ℚ) (i j : Nat) (v : ℚ) (hi : i < buf.length) :
    (buf.set i v).getD j 0 = if i = j then v else buf.getD j 0 := by
  simp only [List.getD_eq_getElem?_getD, List.getElem?_set, hi, if_true]
  split_ifs <;> simp

theorem jmap_unit (x a b : ℚ) : jmap x (-1) 1 a b = a + (b - a) * (x + 1) / 2 := by
  unfold jmap; norm_num

theorem lfoOutMapped_bounds (type : Int) {x : ℚ} (h0 : -1 ≤ x) (h1 : x ≤ 1) :
    1 / 1000 ≤ lfoOutMapped type x ∧ lfoOutMapped type x ≤ 30 / 1000 := by
  unfold lfoOutMapped
  split_ifs <;> rw [jmap_unit] <;> constructor <;> linarith

theorem scaled_lfo_bounds {v d : ℚ} (hv0 : -1 ≤ v) (hv1 : v ≤ 1) (hd0 : 0 ≤ d) (hd1 : d ≤ 1) :
    -1 ≤ v * d ∧ v * d ≤ 1 := by
  constructor <;> nlinarith

theorem delayTimeSamples_bounds {sr : ℚ} {p : Params} {v : ℚ} (hsr : 0 < sr)
    (hp : p.InRange) (hv0 : -1 ≤ v) (hv1 : v ≤ 1) :
    0 < delayTimeSamples sr p v ∧ delayTimeSamples sr p v ≤ 30 / 1000 * sr := by
  obtain ⟨_, ⟨hd0, hd1⟩, _⟩ := hp
  obtain ⟨hx0, hx1⟩ := scaled_lfo_bounds hv0 hv1 hd0 hd1
  obtain ⟨hm0, hm1⟩ := lfoOutMapped_bounds p.mTypeParameter hx0 hx1
  unfold delayTimeSamples
  constructor
  · apply mul_pos hsr; linarith
  · nlinarith

theorem Processor.Configured.rate_pos {sr : ℚ} {s : Processor} (hc : s.Configured sr) :
    1 / 2 ≤ sr := by
  obtain ⟨h1, h2, _⟩ := hc
  have hM : (MAX_DELAY_TIME : ℚ) = 2 := by simp [MAX_DELAY_TIME]
  rw [h2, hM] at h1
  by_contra hlt
  push_neg at hlt
  unfold truncToInt at h1
  split_ifs at h1 with hnn
  · have : ((1 : Int) : ℚ) ≤ sr * 2 := Int.le_floor.mp h1
    push_cast at this; linarith
  · have hc0 : ⌈sr * 2⌉ ≤ 0 := Int.ceil_le.mpr (by push_cast; linarith)
    omega

theorem Processor.Configured.capacity_eq {sr : ℚ} {s : Processor} (hc : s.Configured sr) :
    s.mCircularBufferLength = ⌊sr * 2⌋ := by
  have hsr := hc.rate_pos
  obtain ⟨_, h2, _⟩ := hc
  have hM : (MAX_DELAY_TIME : ℚ) = 2 := by simp [MAX_DELAY_TIME]
  rw [h2, hM, truncToInt_of_nonneg (by linarith)]

/-- The longest mapped delay, 30 ms, fits in the two-second buffer. -/
theorem Processor.Configured.delay_fits {sr : ℚ} {s : Processor} (hc : s.Configured sr) :
    30 / 1000 * sr ≤ (s.mCircularBufferLength : ℚ) := by
  have hcap := hc.capacity_eq
  have h1 : (1 : ℚ) ≤ (s.mCircularBufferLength : ℚ) := by exact_mod_cast hc.1
  have hlt : sr * 2 < (⌊sr * 2⌋ : ℚ) + 1 := Int.lt_floor_add_one _
  rw [← hcap] at hlt
  linarith

theorem delayReadHead_bounds {w len : Int} {d : ℚ} (hw0 : 0 ≤ w) (hw1 : w < len)
    (hd0 : 0 < d) (hd1 : d ≤ (len : ℚ)) :
    0 ≤ delayReadHead w len d ∧ delayReadHead w len d < (len : ℚ) := by
  have h0 : (0 : ℚ) ≤ (w : ℚ) := by exact_mod_cast hw0
  have h1 : (w : ℚ) < (len : ℚ) := by exact_mod_cast hw1
  unfold delayReadHead
  simp only
  split_ifs with h <;> constructor <;> linarith

theorem readHead_x0_bounds {r : ℚ} {len : Int} (h0 : 0 ≤ r) (h1 : r < (len : ℚ)) :
    0 ≤ readHead_x0 r ∧ readHead_x0 r < len := by
  unfold readHead_x0
  rw [truncToInt_of_nonneg h0]
  exact ⟨Int.floor_nonneg.mpr h0, Int.floor_lt.mpr h1⟩

theorem readHead_x1_bounds {x0 len : Int} (h0 : 0 ≤ x0) (h1 : x0 < len) :
    0 ≤ readHead_x1 x0 len ∧ readHead_x1 x0 len < len := by
  unfold readHead_x1
  split_ifs with h <;> constructor <;> omega

theorem readHeadFloat_bounds {r : ℚ} (h0 : 0 ≤ r) :
    0 ≤ readHeadFloat r ∧ readHeadFloat r < 1 := by
  unfold readHeadFloat readHead_x0
  rw [truncToInt_of_nonneg h0]
  have h1 := Int.floor_le r
  have h2 := Int.lt_floor_add_one r
  constructor <;> linarith

theorem nextWriteHead_bounds {w len : Int} (h0 : 0 ≤ w) (_h1 : w < len) :
    0 ≤ nextWriteHead w len ∧ nextWriteHead w len < len := by
  unfold nextWriteHead
  split_ifs with h <;> constructor <;> omega

theorem delayReadHeadLeft_bounds {M : MathFns} {sr : ℚ} {p : Params} {s : Processor}
    (hc : s.Configured sr) (hM : M.SinBounded) (hp : p.InRange) :
    0 ≤ delayReadHeadLeft M sr p s ∧
      delayReadHeadLeft M sr p s < (s.mCircularBufferLength : ℚ) := by
  have hsr : 0 < sr := by have := hc.rate_pos; linarith
  obtain ⟨hd0, hd1⟩ := delayTimeSamples_bounds hsr hp (hM _).1 (hM (2 * M.pi * s.mLFOPhase)).2
  exact delayReadHead_bounds hc.2.2.2.2.1 hc.2.2.2.2.2 hd0 (le_trans hd1 hc.delay_fits)

theorem delayReadHeadRight_bounds {M : MathFns} {sr : ℚ} {p : Params} {s : Processor}
    (hc : s.Configured sr) (hM : M.SinBounded) (hp : p.InRange) :
    0 ≤ delayReadHeadRight M sr p s ∧
      delayReadHeadRight M sr p s < (s.mCircularBufferLength : ℚ) := by
  have hsr : 0 < sr := by have := hc.rate_pos; linarith
  obtain ⟨hd0, hd1⟩ := delayTimeSamples_bounds hsr hp (hM _).1
    (hM (2 * M.pi * lfoPhaseRight s.mLFOPhase p.mPhaseOffsetParameter)).2
  exact delayReadHead_bounds hc.2.2.2.2.1 hc.2.2.2.2.2 hd0 (le_trans hd1 hc.delay_fits)

/-! ## One sample of a configured engine -/

/-- On a configured state whose two read heads lie in `[0, capacity)`, every
buffer access of the sample loop's body is in bounds: it returns the state
and output described by `sampleState` and `sampleOutput`. -/
theorem processSample_eq_of_bounds {M : MathFns} {sr : ℚ} {p : Params} {s : Processor}
    (inL inR : ℚ) (hc : s.Configured sr)
    (hL : 0 ≤ delayReadHeadLeft M sr p s ∧
      delayReadHeadLeft M sr p s < (s.mCircularBufferLength : ℚ))
    (hR : 0 ≤ delayReadHeadRight M sr p s ∧
      delayReadHeadRight M sr p s < (s.mCircularBufferLength : ℚ)) :
    processSample M sr p s inL inR
      = some (sampleState M sr p s inL inR, sampleOutput M sr p s inL inR) := by
  have hlenL := hc.2.2.1
  have hlenR := hc.2.2.2.1
  have hw0 := hc.2.2.2.2.1
  have hw1 := hc.2.2.2.2.2
  obtain ⟨hl0, hl1⟩ := hL
  obtain ⟨hr0, hr1⟩ := hR
  obtain ⟨hxl0, hxl1⟩ := readHead_x0_bounds hl0 hl1
  obtain ⟨hxr0, hxr1⟩ := readHead_x0_bounds hr0 hr1
  obtain ⟨hyl0, hyl1⟩ := readHead_x1_bounds hxl0 hxl1
  obtain ⟨hyr0, hyr1⟩ := readHead_x1_bounds hxr0 hxr1
  have hWL := writeAt_of_lt (inL + s.mFeedbackLeft) hw0 (hlenL ▸ hw1)
  have hWR := writeAt_of_lt (inR + s.mFeedbackRight) hw0 (hlenR ▸ hw1)
  have hlenL' : ((writtenLeft s inL).length : Int) = s.mCircularBufferLength := by
    simp [writtenLeft, hlenL]
  have hlenR' : ((writtenRight s inR).length : Int) = s.mCircularBufferLength := by
    simp [writtenRight, hlenR]
  have hRL0 := @readAt_of_lt (writtenLeft s inL) _ hxl0 (hlenL' ▸ hxl1)
  have hRL1 := @readAt_of_lt (writtenLeft s inL) _ hyl0 (hlenL' ▸ hyl1)
  have hRR0 := @readAt_of_lt (writtenRight s inR) _ hxr0 (hlenR' ▸ hxr1)
  have hRR1 := @readAt_of_lt (writtenRight s inR) _ hyr0 (hlenR' ▸ hyr1)
  unfold processSample
  rw [hWL, hWR]
  simp only [Option.bind_eq_bind, Option.some_bind, Option.pure_def]
  unfold writtenLeft at hRL0 hRL1
  unfold writtenRight at hRR0 hRR1
  simp only [hRL0, hRL1, hRR0, hRR1, Option.some_bind]
  rfl

/-- On a configured state, with parameters in range and a bounded `sin`, the
sample loop's body returns the state and output described by `sampleState`
and `sampleOutput`. -/
theorem processSample_eq {M : MathFns} {sr : ℚ} {p : Params} {s : Processor}
    (inL inR : ℚ) (hc : s.Configured sr) (hM : M.SinBounded) (hp : p.InRange) :
    processSample M sr p s inL inR
      = some (sampleState M sr p s inL inR, sampleOutput M sr p s inL inR) :=
  processSample_eq_of_bounds inL inR hc (delayReadHeadLeft_bounds hc hM hp)
    (delayReadHeadRight_bounds hc hM hp)

theorem sampleState_configured {M : MathFns} {sr : ℚ} {p : Params} {s : Processor}
    (inL inR : ℚ) (hc : s.Configured sr) : (sampleState M sr p s inL inR).Configured sr := by
  obtain ⟨h1, h2, hlenL, hlenR, hw0, hw1⟩ := hc
  obtain ⟨hn0, hn1⟩ := nextWriteHead_bounds hw0 hw1
  refine ⟨h1, h2, ?_, ?_, hn0, hn1⟩
  · simp [sampleState, writtenLeft, hlenL]
  · simp [sampleState, writtenRight, hlenR]

theorem nextWriteHead_eq_emod {w len : Int} (h0 : 0 ≤ w) (h1 : w < len) :
    nextWriteHead w len = (w + 1) % len := by
  unfold nextWriteHead
  split_ifs with h
  · have : w + 1 = len := by omega
    rw [this, Int.emod_self]
  · rw [Int.emod_eq_of_lt (by omega) (by omega)]

/-! ## Whole blocks -/

theorem restingMath_sinBounded : restingMath.SinBounded := by
  intro x; constructor <;> norm_num [restingMath]

theorem capacity_at_one : truncToInt ((1 : ℚ) * (MAX_DELAY_TIME : ℚ)) = 2 := by
  have h : (1 : ℚ) * (MAX_DELAY_TIME : ℚ) = ((2 : Nat) : ℚ) := by norm_num [MAX_DELAY_TIME]
  rw [h, truncToInt_natCast]; rfl

theorem prepareToPlay_configured {sr : ℚ} {spb : Int} {s0 s : Processor}
    (hprep : prepareToPlay sr spb s0 = some s) (hcap : 1 ≤ s.mCircularBufferLength) :
    s.Configured sr ∧ s.mCircularBufferWriteHead = 0 := by
  obtain ⟨h0, _, hs⟩ := prepareToPlay_eq_some_iff.mp hprep
  subst hs
  simp only at hcap
  have hnat : ((truncToInt (sr * (MAX_DELAY_TIME : ℚ))).toNat : Int)
      = truncToInt (sr * (MAX_DELAY_TIME : ℚ)) := Int.toNat_of_nonneg h0
  refine ⟨⟨hcap, rfl, ?_, ?_, le_refl _, ?_⟩, rfl⟩
  · simp [hnat]
  · simp [hnat]
  · show (0 : Int) < truncToInt (sr * (MAX_DELAY_TIME : ℚ))
    omega

theorem prepareToPlay_at_one (spb : Int) (s : Processor) :
    prepareToPlay 1 spb s = some
      { s with
        mLFOPhase := 0
        mCircularBufferLength := 2
        mCircularBufferLeft := [0, 0]
        mCircularBufferRight := [0, 0]
        mCircularBufferWriteHead := 0 } := by
  have hprep := @prepareToPlay_of_trunc 1 spb s
    (by rw [capacity_at_one]; decide) (by rw [capacity_at_one]; decide)
  rw [capacity_at_one] at hprep
  exact hprep

theorem default_inRange : Params.default.InRange := by
  norm_num [Params.InRange, Params.default]

theorem prepareToPlay_feedback {sr : ℚ} {spb : Int} {s s' : Processor}
    (h : prepareToPlay sr spb s = some s') :
    s'.mFeedbackLeft = s.mFeedbackLeft ∧ s'.mFeedbackRight = s.mFeedbackRight ∧
      s'.mLFOPhase = 0 ∧ s'.mCircularBufferWriteHead = 0 := by
  obtain ⟨_, _, hs⟩ := prepareToPlay_eq_some_iff.mp h
  subst hs
  exact ⟨rfl, rfl, rfl, rfl⟩

/-- The first sample after a reconfiguration writes the input plus whatever
the feedback scalars held before `prepareToPlay` into slot 0 of the buffers. -/
theorem first_write_after_prepare {M : MathFns} {sr : ℚ} {spb : Int} {p : Params}
    {s s' : Processor} (inL inR : ℚ) (hM : M.SinBounded) (hp : p.InRange)
    (hprep : prepareToPlay sr spb s = some s') (hcap : 1 ≤ s'.mCircularBufferLength) :
    ∃ s'' out, processSample M sr p s' inL inR = some (s'', out) ∧
      s''.mCircularBufferLeft[0]? = some (inL + s.mFeedbackLeft) ∧
      s''.mCircularBufferRight[0]? = some (inR + s.mFeedbackRight) := by
  obtain ⟨hc, hw⟩ := prepareToPlay_configured hprep hcap
  obtain ⟨hfl, hfr, _, _⟩ := prepareToPlay_feedback hprep
  have hL : 0 < s'.mCircularBufferLeft.length := by
    have := hc.2.2.1; omega
  have hR : 0 < s'.mCircularBufferRight.length := by
    have := hc.2.2.2.1; omega
  refine ⟨_, _, processSample_eq inL inR hc hM hp, ?_, ?_⟩
  · simp [sampleState, writtenLeft, hw, hfl, List.getElem?_set, hL]
  · simp [sampleState, writtenRight, hw, hfr, List.getElem?_set, hR]

theorem freshAtOne_configured : freshAtOne.Configured 1 := by
  refine ⟨by decide, ?_, by decide, by decide, by decide, by decide⟩
  rw [capacity_at_one]; rfl

/-- At 1 Hz with the LFO at rest the chorus delay is 7/400 of a sample. -/
theorem restingDelay (p : Params) (x : ℚ) (h : p.mTypeParameter = 0) :
    delayTimeSamples 1 p (restingMath.sin x) = 7 / 400 := by
  simp only [delayTimeSamples, restingMath, lfoOutMapped, h, if_true, jmap_unit]
  norm_num

theorem floor_793_over_400 : ⌊(793 / 400 : ℚ)⌋ = 1 := by
  rw [Int.floor_eq_iff]; norm_num

/-- The first sample after `prepareToPlay` at 1 Hz, with the default
parameters, input 1 on both channels and the LFO at rest: the delayed sample
is 393/400, the feedback scalars become 393/800 and the output is 793/800. -/
theorem first_sample_at_one :
    processSample restingMath 1 Params.default freshAtOne 1 1 = some
      ({ mLFOPhase := 9
         mFeedbackLeft := 393 / 800
         mFeedbackRight := 393 / 800
         mCircularBufferLength := 2
         mCircularBufferWriteHead := 1
         mCircularBufferLeft := [1, 0]
         mCircularBufferRight := [1, 0] },
       (793 / 800, 793 / 800)) := by
  rw [processSample_eq 1 1 freshAtOne_configured restingMath_sinBounded default_inRange]
  have hL : delayReadHeadLeft restingMath 1 Params.default freshAtOne = 793 / 400 := by
    unfold delayReadHeadLeft
    rw [restingDelay _ _ rfl]
    norm_num [delayReadHead, freshAtOne]
  have hR : delayReadHeadRight restingMath 1 Params.default freshAtOne = 793 / 400 := by
    unfold delayReadHeadRight
    rw [restingDelay _ _ rfl]
    norm_num [delayReadHead, freshAtOne]
  have hx0 : readHead_x0 (793 / 400) = 1 := by
    unfold readHead_x0
    rw [truncToInt_of_nonneg (by norm_num), floor_793_over_400]
  have hf : readHeadFloat (793 / 400) = 393 / 400 := by
    unfold readHeadFloat; rw [hx0]; norm_num
  have hx1 : readHead_x1 1 2 = 0 := by decide
  simp only [sampleState, sampleOutput, delaySampleLeft, delaySampleRight, hL, hR, hx0, hf]
  norm_num [freshAtOne, writtenLeft, writtenRight, hx1, lin_interp, Params.default,
    advanceLFOPhase, nextWriteHead]

/-- C7 (counterexample): configure at 1 Hz, process one sample of value 1 with
the default parameters (feedback 1/2), and configure again: both feedback
scalars are still 393/800, not 0, and the first sample written to the delay
line afterwards for the input 1 is 1193/800, not 1. -/
theorem feedback_survives_prepareToPlay :
    prepareToPlay 1 512 Processor.constructed = some freshAtOne ∧
    ∃ s2 out s3 s4 out',
      processSample restingMath 1 Params.default freshAtOne 1 1 = some (s2, out) ∧
      prepareToPlay 1 512 s2 = some s3 ∧
      s3.mFeedbackLeft = 393 / 800 ∧ s3.mFeedbackRight = 393 / 800 ∧
      s3.mFeedbackLeft ≠ 0 ∧ s3.mFeedbackRight ≠ 0 ∧
      processSample restingMath 1 Params.default s3 1 1 = some (s4, out') ∧
      s4.mCircularBufferLeft[0]? = some (1193 / 800) ∧
      s4.mCircularBufferRight[0]? = some (1193 / 800) := by
  refine ⟨prepareToPlay_at_one 512 Processor.constructed, ?_⟩
  have hprep := prepareToPlay_at_one 512
    { mLFOPhase := 9
      mFeedbackLeft := 393 / 800
      mFeedbackRight := 393 / 800
      mCircularBufferLength := 2
      mCircularBufferWriteHead := 1
      mCircularBufferLeft := [1, 0]
      mCircularBufferRight := [1, 0] }
  obtain ⟨s4, out', hrun, hl, hr⟩ :=
    first_write_after_prepare (M := restingMath) (p := Params.default) 1 1
      restingMath_sinBounded default_inRange hprep (by decide)
  refine ⟨_, _, _, s4, out', first_sample_at_one, hprep, rfl, rfl, ?_, ?_, hrun, ?_, ?_⟩
  · norm_num
  · norm_num
  · rw [hl]; norm_num
  · rw [hr]; norm_num

/-- C7 (amended): at every sample rate whose capacity `⌊sr * 2⌋` is at least 1
(and fits an `int`), `prepareToPlay` resets the LFO phase to 0 but leaves both
feedback scalars at the values they had before the call, so the first sample
written to the delay line after the reconfiguration is the input sample plus
the feedback scalar carried over. -/
theorem prepareToPlay_keeps_feedback (M : MathFns) (sr : ℚ) (samplesPerBlock : Int)
    (p : Params) (s : Processor) (inL inR : ℚ) (hM : M.SinBounded) (hp : p.InRange)
    (hcap : 1 ≤ ⌊sr * 2⌋) (hmax : ⌊sr * 2⌋ ≤ 2147483647) :
    ∃ s', prepareToPlay sr samplesPerBlock s = some s' ∧
      s'.mLFOPhase = 0 ∧
      s'.mFeedbackLeft = s.mFeedbackLeft ∧ s'.mFeedbackRight = s.mFeedbackRight ∧
      ∃ s'' out, processSample M sr p s' inL inR = some (s'', out) ∧
        s''.mCircularBufferLeft[0]? = some (inL + s.mFeedbackLeft) ∧
        s''.mCircularBufferRight[0]? = some (inR + s.mFeedbackRight) := by
  have hprep := prepareToPlay_of_capacity samplesPerBlock s hcap hmax
  obtain ⟨hfl, hfr, hph, _⟩ := prepareToPlay_feedback hprep
  exact ⟨_, hprep, hph, hfl, hfr,
    first_write_after_prepare inL inR hM hp hprep (by simpa using hcap)⟩

/-- Reconfiguring the busy state (feedback scalars 1/2 and 1/3) at 1 Hz. -/
theorem prepareToPlay_keeps_feedback_witness :
    ∃ s', prepareToPlay 1 512 busyState = some s' ∧
      s'.mLFOPhase = 0 ∧
      s'.mFeedbackLeft = busyState.mFeedbackLeft ∧
      s'.mFeedbackRight = busyState.mFeedbackRight ∧
      ∃ s'' out, processSample restingMath 1 Params.default s' 1 1 = some (s'', out) ∧
        s''.mCircularBufferLeft[0]? = some (1 + busyState.mFeedbackLeft) ∧
        s''.mCircularBufferRight[0]? = some (1 + busyState.mFeedbackRight) :=
  prepareToPlay_keeps_feedback restingMath 1 512 Params.default busyState 1 1
    restingMath_sinBounded default_inRange (by rw [Int.le_floor]; norm_num)
    (by
      have h : ⌊(1 : ℚ) * 2⌋ = 2 := by rw [Int.floor_eq_iff]; norm_num
      rw [h]; decide)

/-! ## The fixed delay line -/

theorem emod_eq_of_bounds {x y len : Int} (h0 : 0 ≤ x) (h1 : x < len) (q : Int)
    (h : y = x + len * q) : y % len = x := by
  rw [h, Int.add_mul_emod_self_left, Int.emod_eq_of_lt h0 h1]

theorem readHead_x1_eq_emod {x0 len : Int} (h0 : 0 ≤ x0) (h1 : x0 < len) :
    readHead_x1 x0 len = (x0 + 1) % len := by
  unfold readHead_x1
  split_ifs with h
  · have : x0 + 1 = len := by omega
    rw [this, Int.emod_self]; omega
  · rw [Int.emod_eq_of_lt (by omega) (by omega)]

theorem delayTimeSamples_depth_zero (sr : ℚ) (p : Params) (v : ℚ)
    (hdepth : p.mDepthParameter = 0) (htype : p.mTypeParameter = 0) :
    delayTimeSamples sr p v = chorusMidDelay sr := by
  simp only [delayTimeSamples, lfoOutMapped, hdepth, htype, if_true, jmap_unit,
    chorusMidDelay]
  ring

/-- With a constant delay `D`, `0 < D` and `⌈D⌉ < capacity`, and the cursor at
`n mod capacity`, the read head is in range, the two interpolation indices are
the slots of the instants `n - ⌈D⌉` and `n - ⌈D⌉ + 1`, and the fractional part
is `⌈D⌉ - D`. -/
theorem fixed_read_indices {w len n : Int} {D : ℚ} (hw : w = n % len) (hlen : 0 < len)
    (hD0 : 0 < D) (hc : ⌈D⌉ < len) :
    (0 ≤ delayReadHead w len D ∧ delayReadHead w len D < (len : ℚ)) ∧
    readHead_x0 (delayReadHead w len D) = (n - ⌈D⌉) % len ∧
    readHead_x1 (readHead_x0 (delayReadHead w len D)) len = (n - ⌈D⌉ + 1) % len ∧
    readHeadFloat (delayReadHead w len D) = (⌈D⌉ : ℚ) - D := by
  have hw0 : 0 ≤ w := hw ▸ Int.emod_nonneg n (ne_of_gt hlen)
  have hw1 : w < len := hw ▸ Int.emod_lt_of_pos n hlen
  have hDc : D ≤ (⌈D⌉ : ℚ) := Int.le_ceil D
  have hclen : (⌈D⌉ : ℚ) < (len : ℚ) := by exact_mod_cast hc
  have hb := delayReadHead_bounds hw0 hw1 hD0 (by linarith)
  obtain ⟨hx0, hx1⟩ := readHead_x0_bounds hb.1 hb.2
  have hn : n % len + len * (n / len) = n := Int.emod_add_ediv n len
  rw [← hw] at hn
  have hfloor : ∀ z : Int, ⌊(z : ℚ) + (-D)⌋ = z - ⌈D⌉ := by
    intro z; rw [Int.floor_int_add, Int.floor_neg]; ring
  have key : ∃ x : Int, readHead_x0 (delayReadHead w len D) = x ∧
      (delayReadHead w len D) = (x : ℚ) + ((⌈D⌉ : ℚ) - D) ∧ (n - ⌈D⌉) % len = x := by
    unfold readHead_x0 at hx0 hx1 ⊢
    rw [truncToInt_of_nonneg hb.1] at hx0 hx1 ⊢
    unfold delayReadHead at hx0 hx1 ⊢
    simp only at hx0 hx1 ⊢
    split_ifs at hx0 hx1 ⊢ with hneg
    · have e : (w : ℚ) - D + (len : ℚ) = ((w + len : Int) : ℚ) + (-D) := by
        push_cast; ring
      rw [e, hfloor] at hx0 hx1 ⊢
      refine ⟨_, rfl, by push_cast; ring, ?_⟩
      exact emod_eq_of_bounds hx0 hx1 (n / len - 1) (by linear_combination -hn)
    · have e : (w : ℚ) - D = ((w : Int) : ℚ) + (-D) := by ring
      rw [e, hfloor] at hx0 hx1 ⊢
      refine ⟨_, rfl, by push_cast; ring, ?_⟩
      exact emod_eq_of_bounds hx0 hx1 (n / len) (by linear_combination -hn)
  obtain ⟨x, hx, hr, hmod⟩ := key
  refine ⟨hb, hx.trans hmod.symm, ?_, ?_⟩
  · rw [readHead_x1_eq_emod hx0 hx1, hx, ← hmod, Int.emod_add_emod]
  · unfold readHeadFloat
    rw [hx, hr]; ring

theorem slot_ne_of_recent {n t len : Int} (h0 : t < n) (h1 : n - len < t) (hlen : 0 < len) :
    (n % len).toNat ≠ (t % len).toNat := by
  intro h
  have hn := Int.emod_nonneg n (ne_of_gt hlen)
  have ht := Int.emod_nonneg t (ne_of_gt hlen)
  have heq : n % len = t % len := by
    rw [← Int.toNat_of_nonneg hn, ← Int.toNat_of_nonneg ht, h]
  have hdvd : len ∣ n - t :=
    Int.dvd_of_emod_eq_zero (Int.emod_eq_emod_iff_emod_sub_eq_zero.mp heq)
  have := Int.le_of_dvd (by omega) hdvd
  omega

theorem inputAt_natCast (frames : List (ℚ × ℚ)) (n : Nat) :
    inputAt frames (n : Int) = frames.getD n (0, 0) := by
  simp [inputAt]

/-- The buffers right after the write of instant `n` hold, for each of the
last `capacity` instants up to and including `n`, that instant's input. -/
theorem written_holds {sr : ℚ} {s : Processor} {frames : List (ℚ × ℚ)} {n : Nat}
    (hc : s.Configured sr) (hinv : DelayLineHolds frames n s) (t : Int)
    (h0 : (n : Int) + 1 - s.mCircularBufferLength ≤ t) (h1 : t < (n : Int) + 1) :
    (writtenLeft s (frames.getD n (0, 0)).1).getD (t % s.mCircularBufferLength).toNat 0
        = (inputAt frames t).1 ∧
    (writtenRight s (frames.getD n (0, 0)).2).getD (t % s.mCircularBufferLength).toNat 0
        = (inputAt frames t).2 := by
  obtain ⟨hfl, hfr, hw, hold⟩ := hinv
  have hlen : 0 < s.mCircularBufferLength := by have := hc.1; omega
  have hwL : s.mCircularBufferWriteHead.toNat < s.mCircularBufferLeft.length :=
    (Int.toNat_lt hc.2.2.2.2.1).mpr (hc.2.2.1 ▸ hc.2.2.2.2.2)
  have hwR : s.mCircularBufferWriteHead.toNat < s.mCircularBufferRight.length :=
    (Int.toNat_lt hc.2.2.2.2.1).mpr (hc.2.2.2.1 ▸ hc.2.2.2.2.2)
  unfold writtenLeft writtenRight
  rw [getD_set _ _ _ _ hwL, getD_set _ _ _ _ hwR, hfl, hfr, hw]
  by_cases htn : t = (n : Int)
  · subst htn
    simp [inputAt_natCast]
  · have hne := slot_ne_of_recent (show t < (n : Int) by omega)
      (show (n : Int) - s.mCircularBufferLength < t by omega) hlen
    rw [if_neg hne, if_neg hne]
    exact hold t (by omega) (by omega)

/-- One sample of the fixed delay line: the loop body returns, its output is
the interpolated delayed input, and the delay-line invariant moves on. -/
theorem fixed_step {M : MathFns} {sr : ℚ} {p : Params} {s : Processor}
    {frames : List (ℚ × ℚ)} {n : Nat} (hc : s.Configured sr)
    (hinv : DelayLineHolds frames n s)
    (hdw : p.mDryWetParameter = 1) (hdepth : p.mDepthParameter = 0)
    (hfeed : p.mFeedbackParameter = 0) (htype : p.mTypeParameter = 0)
    (hD0 : 0 < chorusMidDelay sr)
    (hD : ⌈chorusMidDelay sr⌉ < s.mCircularBufferLength) :
    processSample M sr p s (frames.getD n (0, 0)).1 (frames.getD n (0, 0)).2
        = some (sampleState M sr p s (frames.getD n (0, 0)).1 (frames.getD n (0, 0)).2,
            fixedDelayOutput sr frames n) ∧
      DelayLineHolds frames (n + 1)
        (sampleState M sr p s (frames.getD n (0, 0)).1 (frames.getD n (0, 0)).2) := by
  have hlen : 0 < s.mCircularBufferLength := by have := hc.1; omega
  have hcpos : 0 < ⌈chorusMidDelay sr⌉ := Int.ceil_pos.mpr hD0
  obtain ⟨hb, hx0, hx1, hfr⟩ := fixed_read_indices (n := (n : Int)) hinv.2.2.1 hlen hD0 hD
  have hdL : delayReadHeadLeft M sr p s
      = delayReadHead s.mCircularBufferWriteHead s.mCircularBufferLength
          (chorusMidDelay sr) := by
    unfold delayReadHeadLeft; rw [delayTimeSamples_depth_zero _ _ _ hdepth htype]
  have hdR : delayReadHeadRight M sr p s
      = delayReadHead s.mCircularBufferWriteHead s.mCircularBufferLength
          (chorusMidDelay sr) := by
    unfold delayReadHeadRight; rw [delayTimeSamples_depth_zero _ _ _ hdepth htype]
  have hrun := processSample_eq_of_bounds (M := M) (p := p)
    (frames.getD n (0, 0)).1 (frames.getD n (0, 0)).2 hc (hdL ▸ hb) (hdR ▸ hb)
  have hA := written_holds hc hinv ((n : Int) - ⌈chorusMidDelay sr⌉) (by omega) (by omega)
  have hB := written_holds hc hinv ((n : Int) - ⌈chorusMidDelay sr⌉ + 1) (by omega) (by omega)
  have hsL : delaySampleLeft M sr p s (frames.getD n (0, 0)).1
      = (fixedDelayOutput sr frames n).1 := by
    unfold delaySampleLeft
    rw [hdL, hx1, hx0, hfr, hA.1, hB.1]
    simp only [fixedDelayOutput, lin_interp]
  have hsR : delaySampleRight M sr p s (frames.getD n (0, 0)).2
      = (fixedDelayOutput sr frames n).2 := by
    unfold delaySampleRight
    rw [hdR, hx1, hx0, hfr, hA.2, hB.2]
    simp only [fixedDelayOutput, lin_interp]
  constructor
  · rw [hrun]
    congr 1
    apply Prod.ext
    · rfl
    · apply Prod.ext
      · simp only [sampleOutput, hdw, hsL]; ring
      · simp only [sampleOutput, hdw, hsR]; ring
  · refine ⟨?_, ?_, ?_, ?_⟩
    · simp [sampleState, hfeed]
    · simp [sampleState, hfeed]
    · show nextWriteHead s.mCircularBufferWriteHead s.mCircularBufferLength
          = ((n + 1 : Nat) : Int) % s.mCircularBufferLength
      rw [nextWriteHead_eq_emod hc.2.2.2.2.1 hc.2.2.2.2.2, hinv.2.2.1, Int.emod_add_emod]
      push_cast
      rfl
    · intro t h0 h1
      exact written_holds hc hinv t (by push_cast at h0; exact h0) (by push_cast at h1; exact h1)

theorem processBlock_cons_of_some {M : MathFns} {sr : ℚ} {p : Params} {s s1 s2 : Processor}
    {x o : ℚ × ℚ} {rest os : List (ℚ × ℚ)}
    (h1 : processSample M sr p s x.1 x.2 = some (s1, o))
    (h2 : processBlock M sr p s1 rest = some (s2, os)) :
    processBlock M sr p s (x :: rest) = some (s2, o :: os) := by
  obtain ⟨a, b⟩ := x
  simp only [processBlock, h1, h2]

/-- The fixed delay line run on the rest of the block from instant `n` on. -/
theorem fixed_run {M : MathFns} {sr : ℚ} {p : Params} {frames : List (ℚ × ℚ)}
    (hdw : p.mDryWetParameter = 1) (hdepth : p.mDepthParameter = 0)
    (hfeed : p.mFeedbackParameter = 0) (htype : p.mTypeParameter = 0)
    (hD0 : 0 < chorusMidDelay sr) :
    ∀ (m n : Nat) (s : Processor), n + m = frames.length → s.Configured sr →
      DelayLineHolds frames n s → ⌈chorusMidDelay sr⌉ < s.mCircularBufferLength →
      ∃ s' outs, processBlock M sr p s (frames.drop n) = some (s', outs) ∧
        outs.length = m ∧
        ∀ k : Nat, k < m → outs.getD k (0, 0) = fixedDelayOutput sr frames (n + k) := by
  intro m
  induction m with
  | zero =>
    intro n s hn _ _ _
    have : n = frames.length := by omega
    subst this
    refine ⟨s, [], ?_, rfl, ?_⟩
    · rw [List.drop_length]; rfl
    · intro k hk; omega
  | succ m ih =>
    intro n s hn hc hinv hD
    have hlt : n < frames.length := by omega
    obtain ⟨hrun, hinv'⟩ := fixed_step (M := M) hc hinv hdw hdepth hfeed htype hD0 hD
    have hc' := sampleState_configured (M := M) (p := p)
      (frames.getD n (0, 0)).1 (frames.getD n (0, 0)).2 hc
    obtain ⟨s', os, hrest, hlen, hout⟩ := ih (n + 1) _ (by omega) hc' hinv' hD
    have hdrop : frames.drop n = frames.getD n (0, 0) :: frames.drop (n + 1) := by
      rw [List.getD_eq_getElem _ _ hlt]
      exact List.drop_eq_getElem_cons hlt
    refine ⟨s', fixedDelayOutput sr frames n :: os, ?_, ?_, ?_⟩
    · rw [hdrop]
      exact processBlock_cons_of_some hrun hrest
    · simp [hlen]
    · intro k hk
      cases k with
      | zero => rfl
      | succ j =>
        have := hout j (by omega)
        rw [show n + (j + 1) = n + 1 + j by omega]
        simpa using this

theorem getD_replicate_zero (k j : Nat) : (List.replicate k (0 : ℚ)).getD j 0 = 0 := by
  simp only [List.getD_eq_getElem?_getD, List.getElem?_replicate]
  split_ifs <;> rfl

theorem prepareToPlay_buffers {sr : ℚ} {spb : Int} {s0 s : Processor}
    (h : prepareToPlay sr spb s0 = some s) :
    s.mCircularBufferLength = truncToInt (sr * (MAX_DELAY_TIME : ℚ)) ∧
      0 ≤ s.mCircularBufferLength ∧
      s.mCircularBufferLeft = List.replicate s.mCircularBufferLength.toNat 0 ∧
      s.mCircularBufferRight = List.replicate s.mCircularBufferLength.toNat 0 := by
  obtain ⟨h0, _, hs⟩ := prepareToPlay_eq_some_iff.mp h
  subst hs
  exact ⟨rfl, h0, rfl, rfl⟩

/-- A configuration whose capacity exceeds `⌈0.0175 * sr⌉` has a positive rate. -/
theorem rate_pos_of_fixed {sr : ℚ} {spb : Int} {s0 s : Processor}
    (hprep : prepareToPlay sr spb s0 = some s)
    (hD : ⌈chorusMidDelay sr⌉ < s.mCircularBufferLength) : 0 < sr := by
  obtain ⟨hlen, hnn, _, _⟩ := prepareToPlay_buffers hprep
  have hM : (MAX_DELAY_TIME : ℚ) = 2 := by simp [MAX_DELAY_TIME]
  rw [hM] at hlen
  by_contra hsr
  push_neg at hsr
  have hle : s.mCircularBufferLength ≤ 0 := by
    rw [hlen]
    unfold truncToInt
    split_ifs with h0
    · have : sr * 2 = 0 := by linarith
      rw [this]; simp
    · exact Int.ceil_le.mpr (by push_cast; linarith)
  have hc1 : ⌈chorusMidDelay sr⌉ ≤ -1 := by omega
  have hDle : chorusMidDelay sr ≤ ((-1 : Int) : ℚ) := Int.ceil_le.mp hc1
  unfold chorusMidDelay at hDle
  push_cast at hDle
  have hneg : ¬ (0 ≤ sr * 2) := by linarith
  have hlen' : s.mCircularBufferLength ≤ -1 := by
    rw [hlen]
    unfold truncToInt
    rw [if_neg hneg]
    exact Int.ceil_le.mpr (by push_cast; linarith)
  omega

/-- The fixed delay line in exact arithmetic: from a freshly configured engine
(`prepareToPlay` at `sr` on a state with feedback scalars 0), with dry/wet 1,
depth 0, feedback 0, chorus, and
`⌈D⌉ < capacity` for `D = 0.0175 * sr`, `processBlock` returns and its output
at every sample index `i` is `(1 - f) * in[i - ⌈D⌉] + f * in[i - ⌈D⌉ + 1]`
per channel, with `f = ⌈D⌉ - D` and `in[j] = 0` for `j < 0`; when `D` is a
whole number `d` the output is the input delayed by `d` samples, silent for
`i < d`. -/
theorem fixed_delay_line (M : MathFns) (sr : ℚ) (samplesPerBlock : Int) (p : Params)
    (s0 s : Processor) (frames : List (ℚ × ℚ))
    (hfb : s0.mFeedbackLeft = 0 ∧ s0.mFeedbackRight = 0)
    (hprep : prepareToPlay sr samplesPerBlock s0 = some s)
    (hdw : p.mDryWetParameter = 1) (hdepth : p.mDepthParameter = 0)
    (hfeed : p.mFeedbackParameter = 0) (htype : p.mTypeParameter = 0)
    (hD : ⌈chorusMidDelay sr⌉ < s.mCircularBufferLength) :
    ∃ s' outs, processBlock M sr p s frames = some (s', outs) ∧
      outs.length = frames.length ∧
      (∀ i : Nat, i < frames.length → outs.getD i (0, 0) = fixedDelayOutput sr frames i) ∧
      (∀ d : Nat, chorusMidDelay sr = (d : ℚ) → ∀ i : Nat, i < frames.length →
        outs.getD i (0, 0) = inputAt frames ((i : Int) - (d : Int)) ∧
        (i < d → outs.getD i (0, 0) = (0, 0))) := by
  have hsr := rate_pos_of_fixed hprep hD
  have hD0 : 0 < chorusMidDelay sr := by unfold chorusMidDelay; positivity
  have hcpos : 0 < ⌈chorusMidDelay sr⌉ := Int.ceil_pos.mpr hD0
  obtain ⟨hc, hw⟩ := prepareToPlay_configured hprep (by omega)
  obtain ⟨hfl, hfr, _, _⟩ := prepareToPlay_feedback hprep
  obtain ⟨_, _, hbL, hbR⟩ := prepareToPlay_buffers hprep
  have hinv : DelayLineHolds frames 0 s := by
    refine ⟨hfl.trans hfb.1, hfr.trans hfb.2, ?_, ?_⟩
    · rw [hw]; simp
    · intro t _ ht
      have htneg : t < 0 := by simpa using ht
      rw [hbL, hbR, getD_replicate_zero]
      simp [inputAt, htneg]
  obtain ⟨s', outs, hrun, hlen, hout⟩ :=
    fixed_run (M := M) hdw hdepth hfeed htype hD0 frames.length 0 s (by omega) hc hinv hD
  have hout' : ∀ i : Nat, i < frames.length →
      outs.getD i (0, 0) = fixedDelayOutput sr frames i := by
    intro i hi
    have := hout i hi
    rwa [zero_add] at this
  refine ⟨s', outs, by simpa using hrun, hlen, hout', ?_⟩
  intro d hd i hi
  have hceil : ⌈chorusMidDelay sr⌉ = (d : Int) := by
    rw [hd]; exact Int.ceil_natCast d
  have hval : outs.getD i (0, 0) = inputAt frames ((i : Int) - (d : Int)) := by
    rw [hout' i hi]
    simp only [fixedDelayOutput, hceil]
    rw [hd]
    apply Prod.ext <;> simp
  refine ⟨hval, ?_⟩
  intro hid
  rw [hval]
  have : (i : Int) - (d : Int) < 0 := by omega
  simp [inputAt, this]

theorem capacity_at_400 : truncToInt ((400 : ℚ) * (MAX_DELAY_TIME : ℚ)) = 800 := by
  have h : (400 : ℚ) * (MAX_DELAY_TIME : ℚ) = ((800 : Nat) : ℚ) := by
    norm_num [MAX_DELAY_TIME]
  rw [h, truncToInt_natCast]; rfl

theorem prepareToPlay_at_400 :
    prepareToPlay 400 512 Processor.constructed = some freshAt400 := by
  have hprep := @prepareToPlay_of_trunc 400 512 Processor.constructed
    (by rw [capacity_at_400]; decide) (by rw [capacity_at_400]; decide)
  rw [capacity_at_400] at hprep
  have h : (800 : Int).toNat = 800 := by decide
  rw [h] at hprep
  exact hprep

theorem chorusMidDelay_at_400 : chorusMidDelay 400 = ((7 : Nat) : ℚ) := by
  norm_num [chorusMidDelay]

/-- At 400 Hz the delay is 7 samples, a whole number, inside the capacity of
800: a block of nine samples comes out as seven samples of silence followed
by its first two samples. -/
theorem fixed_delay_line_witness :
    ∃ s' outs, processBlock restingMath 400 fixedDelayParams freshAt400
        [(1, 2), (3, 4), (5, 6), (7, 8), (9, 10), (11, 12), (13, 14), (15, 16), (17, 18)]
          = some (s', outs) ∧
      outs.length = 9 ∧
      outs.getD 0 (0, 0) = (0, 0) ∧ outs.getD 6 (0, 0) = (0, 0) ∧
      outs.getD 7 (0, 0) = (1, 2) ∧ outs.getD 8 (0, 0) = (3, 4) := by
  obtain ⟨s', outs, hrun, hlen, _, hd⟩ :=
    fixed_delay_line restingMath 400 512 fixedDelayParams Processor.constructed freshAt400
      [(1, 2), (3, 4), (5, 6), (7, 8), (9, 10), (11, 12), (13, 14), (15, 16), (17, 18)]
      ⟨rfl, rfl⟩ prepareToPlay_at_400 rfl rfl rfl rfl
      (by
        rw [chorusMidDelay_at_400, Int.ceil_natCast]
        show ((7 : Nat) : Int) < 800
        decide)
  have h := hd 7 chorusMidDelay_at_400
  refine ⟨s', outs, hrun, hlen, (h 0 (by decide)).2 (by decide),
    (h 6 (by decide)).2 (by decide), ?_, ?_⟩
  · rw [(h 7 (by decide)).1]; rfl
  · rw [(h 8 (by decide)).1]; rfl

/-! ## Delay-line reads stay in bounds -/

theorem lfoOutMapped_chorus {x : ℚ} (h0 : -1 ≤ x) (h1 : x ≤ 1) :
    5 / 1000 ≤ lfoOutMapped 0 x ∧ lfoOutMapped 0 x ≤ 30 / 1000 := by
  unfold lfoOutMapped
  rw [if_pos rfl, jmap_unit]
  constructor <;> linarith

theorem lfoOutMapped_flanger {type : Int} (ht : type ≠ 0) {x : ℚ} (h0 : -1 ≤ x) (h1 : x ≤ 1) :
    1 / 1000 ≤ lfoOutMapped type x ∧ lfoOutMapped type x ≤ 5 / 1000 := by
  unfold lfoOutMapped
  rw [if_neg ht, jmap_unit]
  constructor <;> linarith

/-- The mapped delay of a waveform value in `[-1, 1]` at a depth in `[0, 1]`
lies in the range of the effect type. -/
theorem delayTimeSamples_inRange {sr : ℚ} {p : Params} {v : ℚ} (hsr : 0 ≤ sr)
    (hd0 : 0 ≤ p.mDepthParameter) (hd1 : p.mDepthParameter ≤ 1)
    (hv0 : -1 ≤ v) (hv1 : v ≤ 1) :
    DelayInRange sr p.mTypeParameter (delayTimeSamples sr p v) := by
  obtain ⟨hx0, hx1⟩ := scaled_lfo_bounds hv0 hv1 hd0 hd1
  unfold DelayInRange delayTimeSamples
  split_ifs with ht
  · rw [ht]
    obtain ⟨hm0, hm1⟩ := lfoOutMapped_chorus hx0 hx1
    constructor <;> nlinarith
  · obtain ⟨hm0, hm1⟩ := lfoOutMapped_flanger ht hx0 hx1
    constructor <;> nlinarith

theorem DelayInRange.pos_le {sr : ℚ} {type : Int} {d : ℚ} (hsr : 0 < sr)
    (h : DelayInRange sr type d) : 0 < d ∧ d ≤ 30 / 1000 * sr := by
  unfold DelayInRange at h
  split_ifs at h <;> constructor <;> linarith [h.1, h.2]

/-- The longest mapped delay, 30 ms of samples, is at most `⌊2 * sr⌋`
whenever that capacity is at least 1. -/
theorem longest_delay_fits {sr : ℚ} (hcap : 1 ≤ ⌊sr * 2⌋) :
    30 / 1000 * sr ≤ ((⌊sr * 2⌋ : Int) : ℚ) := by
  have h1 : (1 : ℚ) ≤ ((⌊sr * 2⌋ : Int) : ℚ) := by exact_mod_cast hcap
  have hlt : sr * 2 < ((⌊sr * 2⌋ : Int) : ℚ) + 1 := Int.lt_floor_add_one _
  linarith

/-- A read position computed from a cursor in `[0, length)` and a delay in
`(0, length]` is in bounds. -/
theorem readInBounds_of_delay {w len : Int} {d : ℚ} (hw0 : 0 ≤ w) (hw1 : w < len)
    (hd0 : 0 < d) (hd1 : d ≤ (len : ℚ)) : ReadInBounds len (delayReadHead w len d) := by
  obtain ⟨hr0, hr1⟩ := delayReadHead_bounds hw0 hw1 hd0 hd1
  obtain ⟨hx0, hx1⟩ := readHead_x0_bounds hr0 hr1
  exact ⟨⟨hr0, hr1⟩, readHeadFloat_bounds hr0, ⟨hx0, hx1⟩, readHead_x1_bounds hx0 hx1⟩

/-- Delay-line reads in exact arithmetic: for every sample rate with capacity
`⌊2 * sr⌋ ≥ 1`, every write cursor in `[0, capacity)`, every depth in `[0, 1]`, a `sin` with values in
`[-1, 1]` and either effect type, the mapped delay in samples of each channel
lies in `[0.005 * sr, 0.030 * sr]` (chorus) or `[0.001 * sr, 0.005 * sr]`
(flanger) and is at most the capacity, the wrapped read position of each
channel lies in `[0, capacity)`, its fractional part lies in `[0, 1)`, and
both interpolation indices `x0` and `x1` lie in `[0, capacity)`. -/
theorem delay_reads_in_bounds (M : MathFns) (sr : ℚ) (p : Params) (s : Processor)
    (hM : M.SinBounded) (hcap : 1 ≤ ⌊sr * 2⌋)
    (hlen : s.mCircularBufferLength = ⌊sr * 2⌋)
    (hw0 : 0 ≤ s.mCircularBufferWriteHead)
    (hw1 : s.mCircularBufferWriteHead < s.mCircularBufferLength)
    (hd0 : 0 ≤ p.mDepthParameter) (hd1 : p.mDepthParameter ≤ 1) :
    (DelayInRange sr p.mTypeParameter
        (delayTimeSamples sr p (M.sin (2 * M.pi * s.mLFOPhase))) ∧
      delayTimeSamples sr p (M.sin (2 * M.pi * s.mLFOPhase))
        ≤ (s.mCircularBufferLength : ℚ) ∧
      ReadInBounds s.mCircularBufferLength (delayReadHeadLeft M sr p s)) ∧
    (DelayInRange sr p.mTypeParameter
        (delayTimeSamples sr p
          (M.sin (2 * M.pi * lfoPhaseRight s.mLFOPhase p.mPhaseOffsetParameter))) ∧
      delayTimeSamples sr p
          (M.sin (2 * M.pi * lfoPhaseRight s.mLFOPhase p.mPhaseOffsetParameter))
        ≤ (s.mCircularBufferLength : ℚ) ∧
      ReadInBounds s.mCircularBufferLength (delayReadHeadRight M sr p s)) := by
  have hsr : 0 < sr := by have := half_le_of_one_le_floor hcap; linarith
  have hfit : 30 / 1000 * sr ≤ (s.mCircularBufferLength : ℚ) := by
    rw [hlen]; exact longest_delay_fits hcap
  have hL := delayTimeSamples_inRange (p := p) (le_of_lt hsr) hd0 hd1
    (hM (2 * M.pi * s.mLFOPhase)).1 (hM (2 * M.pi * s.mLFOPhase)).2
  have hR := delayTimeSamples_inRange (p := p) (le_of_lt hsr) hd0 hd1
    (hM (2 * M.pi * lfoPhaseRight s.mLFOPhase p.mPhaseOffsetParameter)).1
    (hM (2 * M.pi * lfoPhaseRight s.mLFOPhase p.mPhaseOffsetParameter)).2
  obtain ⟨hLp, hLle⟩ := hL.pos_le hsr
  obtain ⟨hRp, hRle⟩ := hR.pos_le hsr
  exact ⟨⟨hL, le_trans hLle hfit, readInBounds_of_delay hw0 hw1 hLp (le_trans hLle hfit)⟩,
    ⟨hR, le_trans hRle hfit, readInBounds_of_delay hw0 hw1 hRp (le_trans hRle hfit)⟩⟩

/-- The busy state at 1 Hz (capacity 2, cursor 1) with the default parameters. -/
theorem delay_reads_in_bounds_witness :
    (DelayInRange 1 Params.default.mTypeParameter
        (delayTimeSamples 1 Params.default
          (restingMath.sin (2 * restingMath.pi * busyState.mLFOPhase))) ∧
      delayTimeSamples 1 Params.default
          (restingMath.sin (2 * restingMath.pi * busyState.mLFOPhase))
        ≤ (busyState.mCircularBufferLength : ℚ) ∧
      ReadInBounds busyState.mCircularBufferLength
        (delayReadHeadLeft restingMath 1 Params.default busyState)) ∧
    (DelayInRange 1 Params.default.mTypeParameter
        (delayTimeSamples 1 Params.default
          (restingMath.sin (2 * restingMath.pi *
            lfoPhaseRight busyState.mLFOPhase Params.default.mPhaseOffsetParameter))) ∧
      delayTimeSamples 1 Params.default
          (restingMath.sin (2 * restingMath.pi *
            lfoPhaseRight busyState.mLFOPhase Params.default.mPhaseOffsetParameter))
        ≤ (busyState.mCircularBufferLength : ℚ) ∧
      ReadInBounds busyState.mCircularBufferLength
        (delayReadHeadRight restingMath 1 Params.default busyState)) :=
  delay_reads_in_bounds restingMath 1 Params.default busyState restingMath_sinBounded
    (by rw [Int.le_floor]; norm_num)
    (by
      show (2 : Int) = ⌊(1 : ℚ) * 2⌋
      symm; rw [Int.floor_eq_iff]; norm_num)
    (by decide) (by decide)
    (by norm_num [Params.default]) (by norm_num [Params.default])

/-! ## Rounding -/

theorem log_two_eq {x : ℚ} {e : Int} (hx : 0 < x) (h1 : (2 : ℚ) ^ e ≤ x)
    (h2 : x < (2 : ℚ) ^ (e + 1)) : Int.log 2 x = e := by
  have hle : e ≤ Int.log 2 x :=
    (Int.zpow_le_iff_le_log (by norm_num) hx).mp (by exact_mod_cast h1)
  have hlt : Int.log 2 x < e + 1 :=
    (Int.lt_zpow_iff_log_lt (by norm_num) hx).mp (by exact_mod_cast h2)
  omega

theorem roundHalfEven_intCast (n : Int) : roundHalfEven (n : ℚ) = n := by
  simp [roundHalfEven]

theorem roundHalfEven_mem (y : ℚ) : roundHalfEven y = ⌊y⌋ ∨ roundHalfEven y = ⌊y⌋ + 1 := by
  unfold roundHalfEven
  split_ifs <;> simp

theorem roundHalfEven_ge {y : ℚ} {n : Int} (h : (n : ℚ) ≤ y) : n ≤ roundHalfEven y := by
  have hf : n ≤ ⌊y⌋ := Int.le_floor.mpr h
  rcases roundHalfEven_mem y with h' | h' <;> omega

theorem roundHalfEven_le {y : ℚ} {n : Int} (h : y ≤ (n : ℚ)) : roundHalfEven y ≤ n := by
  have hf : ⌊y⌋ ≤ n := Int.floor_le_floor h |>.trans (le_of_eq (Int.floor_intCast n))
  by_cases hlt : ⌊y⌋ < n
  · rcases roundHalfEven_mem y with h' | h' <;> omega
  · have heq : ⌊y⌋ = n := by omega
    have hy : y = (n : ℚ) := le_antisymm h (heq ▸ Int.floor_le y)
    rw [hy, roundHalfEven_intCast]

theorem roundHalfEven_of_near {y : ℚ} {n : Int} (h1 : (n : ℚ) - 1 / 2 < y)
    (h2 : y < (n : ℚ) + 1 / 2) : roundHalfEven y = n := by
  by_cases hy : (n : ℚ) ≤ y
  · have hf : ⌊y⌋ = n := Int.floor_eq_iff.mpr ⟨hy, by linarith⟩
    unfold roundHalfEven
    rw [hf, if_pos (by linarith)]
  · push_neg at hy
    have hf : ⌊y⌋ = n - 1 := Int.floor_eq_iff.mpr ⟨by push_cast; linarith, by push_cast; linarith⟩
    unfold roundHalfEven
    rw [hf, if_neg (by push_cast; linarith), if_pos (by push_cast; linarith)]
    ring

/-- A tie between `n - 1` and `n` goes to `n` when `n` is even. -/
theorem roundHalfEven_of_tie {y : ℚ} {n : Int} (h : y = (n : ℚ) - 1 / 2) (he : n % 2 = 0) :
    roundHalfEven y = n := by
  have hf : ⌊y⌋ = n - 1 := Int.floor_eq_iff.mpr ⟨by push_cast; linarith, by push_cast; linarith⟩
  unfold roundHalfEven
  rw [hf, if_neg (by push_cast; linarith), if_neg (by push_cast; linarith),
    if_neg (by omega)]
  ring

theorem roundToPrec_zero (p : Nat) : roundToPrec p 0 = 0 := by
  simp [roundToPrec]

/-- The rounding of `x` once its binade `2 ^ e ≤ |x| < 2 ^ (e + 1)` and the
rounded significand are known. -/
theorem roundToPrec_eq {p : Nat} {x : ℚ} (e n : Int) (hx : x ≠ 0)
    (h1 : (2 : ℚ) ^ e ≤ |x|) (h2 : |x| < (2 : ℚ) ^ (e + 1))
    (hn : roundHalfEven (x / 2 ^ (e - ((p : Int) - 1))) = n) :
    roundToPrec p x = (n : ℚ) * 2 ^ (e - ((p : Int) - 1)) := by
  have hlog : Int.log 2 |x| = e := log_two_eq (abs_pos.mpr hx) h1 h2
  unfold roundToPrec
  rw [if_neg hx, hlog, hn]

theorem roundToPrec_nonneg {p : Nat} {x : ℚ} (h : 0 ≤ x) : 0 ≤ roundToPrec p x := by
  unfold roundToPrec
  split_ifs with h0
  · exact le_refl 0
  · have hu : (0 : ℚ) < 2 ^ (Int.log 2 |x| - ((p : Int) - 1)) := by positivity
    have hn : (0 : Int) ≤ roundHalfEven (x / 2 ^ (Int.log 2 |x| - ((p : Int) - 1))) :=
      roundHalfEven_ge (by push_cast; positivity)
    have : (0 : ℚ) ≤ (roundHalfEven (x / 2 ^ (Int.log 2 |x| - ((p : Int) - 1))) : ℚ) := by
      exact_mod_cast hn
    positivity

/-- Rounding does not pass a power of two: a value of at most `2 ^ k` rounds
to at most `2 ^ k` (for a precision of at least one bit). -/
theorem roundToPrec_le_two_zpow {p : Nat} (hp : 1 ≤ p) {x : ℚ} (k : Int)
    (h : x ≤ (2 : ℚ) ^ k) : roundToPrec p x ≤ (2 : ℚ) ^ k := by
  unfold roundToPrec
  split_ifs with h0
  · positivity
  · have hu : (0 : ℚ) < 2 ^ (Int.log 2 |x| - ((p : Int) - 1)) := by positivity
    rcases lt_or_gt_of_ne h0 with hneg | hpos
    · have hn : roundHalfEven (x / 2 ^ (Int.log 2 |x| - ((p : Int) - 1))) ≤ (0 : Int) :=
        roundHalfEven_le (by
          push_cast
          exact div_nonpos_of_nonpos_of_nonneg (le_of_lt hneg) (le_of_lt hu))
      have hq : (roundHalfEven (x / 2 ^ (Int.log 2 |x| - ((p : Int) - 1))) : ℚ) ≤ 0 := by
        exact_mod_cast hn
      have h2 : (0 : ℚ) < 2 ^ k := by positivity
      nlinarith
    · have habs : |x| = x := abs_of_pos hpos
      rw [habs] at hu ⊢
      have hlog : Int.log 2 x < k + 1 :=
        (Int.lt_zpow_iff_log_lt (by norm_num) hpos).mp (by
          have : (2 : ℚ) ^ k < 2 ^ (k + 1) := zpow_lt_zpow_right₀ (by norm_num) (by omega)
          exact_mod_cast lt_of_le_of_lt h this)
      have hd : 0 ≤ k - (Int.log 2 x - ((p : Int) - 1)) := by omega
      obtain ⟨d, hd'⟩ := Int.eq_ofNat_of_zero_le hd
      have hsplit : (2 : ℚ) ^ k
          = ((2 ^ d : Nat) : ℚ) * 2 ^ (Int.log 2 x - ((p : Int) - 1)) := by
        have : k = (d : Int) + (Int.log 2 x - ((p : Int) - 1)) := by omega
        rw [this, zpow_add₀ (by norm_num), zpow_natCast]
        push_cast
        rfl
      have hle : x / 2 ^ (Int.log 2 x - ((p : Int) - 1)) ≤ (((2 ^ d : Nat) : Int) : ℚ) := by
        rw [div_le_iff₀ hu]
        push_cast
        push_cast at hsplit
        rw [← hsplit]
        exact h
      have hn := roundHalfEven_le hle
      have hq : (roundHalfEven (x / 2 ^ (Int.log 2 x - ((p : Int) - 1))) : ℚ)
          ≤ (((2 ^ d : Nat) : Int) : ℚ) := by exact_mod_cast hn
      rw [hsplit]
      push_cast at hq ⊢
      exact mul_le_mul_of_nonneg_right hq (le_of_lt hu)

/-- A number `m * 2 ^ j` with `0 < m < 2 ^ p` is representable with `p` bits:
rounding leaves it alone. -/
theorem roundToPrec_exact {p : Nat} (m : Nat) (j : Int) (hm0 : 0 < m) (hm : m < 2 ^ p) :
    roundToPrec p ((m : ℚ) * 2 ^ j) = (m : ℚ) * 2 ^ j := by
  have hx : (0 : ℚ) < (m : ℚ) * 2 ^ j := by positivity
  have habs : |(m : ℚ) * 2 ^ j| = (m : ℚ) * 2 ^ j := abs_of_pos hx
  have hlt : (m : ℚ) * 2 ^ j < (2 : ℚ) ^ ((p : Int) + j) := by
    rw [zpow_add₀ (by norm_num), zpow_natCast]
    have : (m : ℚ) < 2 ^ p := by exact_mod_cast hm
    exact mul_lt_mul_of_pos_right this (by positivity)
  have hlog : Int.log 2 ((m : ℚ) * 2 ^ j) < (p : Int) + j :=
    (Int.lt_zpow_iff_log_lt (by norm_num) hx).mp (by exact_mod_cast hlt)
  have hd : 0 ≤ j - (Int.log 2 ((m : ℚ) * 2 ^ j) - ((p : Int) - 1)) := by omega
  obtain ⟨d, hd'⟩ := Int.eq_ofNat_of_zero_le hd
  have hj : j = (d : Int) + (Int.log 2 ((m : ℚ) * 2 ^ j) - ((p : Int) - 1)) := by omega
  have hu : (0 : ℚ) < 2 ^ (Int.log 2 ((m : ℚ) * 2 ^ j) - ((p : Int) - 1)) := by positivity
  have hsplit : (m : ℚ) * 2 ^ j = (((m * 2 ^ d : Nat) : Int) : ℚ)
      * 2 ^ (Int.log 2 ((m : ℚ) * 2 ^ j) - ((p : Int) - 1)) := by
    conv_lhs => rw [hj, zpow_add₀ (by norm_num : (2 : ℚ) ≠ 0), zpow_natCast]
    push_cast
    ring
  have hdiv : (m : ℚ) * 2 ^ j / 2 ^ (Int.log 2 ((m : ℚ) * 2 ^ j) - ((p : Int) - 1))
      = (((m * 2 ^ d : Nat) : Int) : ℚ) := by
    rw [div_eq_iff (ne_of_gt hu)]
    exact hsplit
  unfold roundToPrec
  rw [if_neg (ne_of_gt hx), habs, hdiv, roundHalfEven_intCast]
  exact hsplit.symm

/-- A tie between `n` and `n + 1` goes to `n` when `n` is even. -/
theorem roundHalfEven_of_tie_down {y : ℚ} {n : Int} (h : y = (n : ℚ) + 1 / 2)
    (he : n % 2 = 0) : roundHalfEven y = n := by
  have hf : ⌊y⌋ = n := Int.floor_eq_iff.mpr ⟨by linarith, by linarith⟩
  unfold roundHalfEven
  rw [hf, if_neg (by linarith), if_neg (by linarith), if_pos he]

theorem toFloat_zero : toFloat 0 = 0 :=
  roundToPrec_zero 24

theorem toDouble_zero : toDouble 0 = 0 :=
  roundToPrec_zero 53

/-! ## The read head in single precision at two settings -/

/-- The flanger delay time at depth 0 as the `float` operations give it. -/
theorem lfoOutMappedSingle_flanger_rest {type : Int} (ht : type ≠ 0) :
    lfoOutMappedSingle type 0 = 6442451 / 2147483648 := by
  have hc : toFloat (1 / 1000) = 8589935 / 8589934592 := by
    unfold toFloat
    refine (roundToPrec_eq (-10) 8589935 (by norm_num) ?_ ?_
      (roundHalfEven_of_near ?_ ?_)).trans ?_
    · norm_num [abs_of_pos]
    · norm_num [abs_of_pos]
    · norm_num
    · norm_num
    · norm_num
  have hd : toFloat (5 / 1000) = 5368709 / 1073741824 := by
    unfold toFloat
    refine (roundToPrec_eq (-8) 10737418 (by norm_num) ?_ ?_
      (roundHalfEven_of_near ?_ ?_)).trans ?_
    · norm_num [abs_of_pos]
    · norm_num [abs_of_pos]
    · norm_num
    · norm_num
    · norm_num
  have h1 : toFloat (5368709 / 1073741824 - 8589935 / 8589934592) = 4294967 / 1073741824 := by
    unfold toFloat
    refine (roundToPrec_eq (-8) 8589934 (by norm_num) ?_ ?_
      (roundHalfEven_of_near ?_ ?_)).trans ?_
    · norm_num [abs_of_pos]
    · norm_num [abs_of_pos]
    · norm_num
    · norm_num
    · norm_num
  have hone : toFloat (0 - -1) = 1 := by
    unfold toFloat
    refine (roundToPrec_eq 0 8388608 (by norm_num) ?_ ?_
      (roundHalfEven_of_near ?_ ?_)).trans ?_
    · norm_num [abs_of_pos]
    · norm_num [abs_of_pos]
    · norm_num
    · norm_num
    · norm_num
  have h3 : toFloat (4294967 / 1073741824 * 1) = 4294967 / 1073741824 := by
    unfold toFloat
    refine (roundToPrec_eq (-8) 8589934 (by norm_num) ?_ ?_
      (roundHalfEven_of_near ?_ ?_)).trans ?_
    · norm_num [abs_of_pos]
    · norm_num [abs_of_pos]
    · norm_num
    · norm_num
    · norm_num
  have htwo : toFloat (1 - -1) = 2 := by
    unfold toFloat
    refine (roundToPrec_eq 1 8388608 (by norm_num) ?_ ?_
      (roundHalfEven_of_near ?_ ?_)).trans ?_
    · norm_num [abs_of_pos]
    · norm_num [abs_of_pos]
    · norm_num
    · norm_num
    · norm_num
  have h5 : toFloat (4294967 / 1073741824 / 2) = 4294967 / 2147483648 := by
    unfold toFloat
    refine (roundToPrec_eq (-9) 8589934 (by norm_num) ?_ ?_
      (roundHalfEven_of_near ?_ ?_)).trans ?_
    · norm_num [abs_of_pos]
    · norm_num [abs_of_pos]
    · norm_num
    · norm_num
    · norm_num
  have hm : toFloat (8589935 / 8589934592 + 4294967 / 2147483648) = 6442451 / 2147483648 := by
    unfold toFloat
    refine (roundToPrec_eq (-9) 12884902 (by norm_num) ?_ ?_
      (roundHalfEven_of_tie ?_ ?_)).trans ?_
    · norm_num [abs_of_pos]
    · norm_num [abs_of_pos]
    · norm_num
    · decide
    · norm_num
  unfold lfoOutMappedSingle jmapSingle
  rw [if_neg ht, hc, hd, h1, hone, h3, htwo, h5, hm]

/-- The flanger delay in samples at depth 0 and 16667 Hz, in `float`. -/
theorem delayTimeSamplesSingle_flanger_rest {p : Params} (v : ℚ)
    (hdepth : p.mDepthParameter = 0) (htype : p.mTypeParameter = 1) :
    delayTimeSamplesSingle 16667 p v = 6553731 / 131072 := by
  have hD : toDouble (16667 * (6442451 / 2147483648)) = 107376330817 / 2147483648 := by
    unfold toDouble
    refine (roundToPrec_eq 5 7037015216422912 (by norm_num) ?_ ?_
      (roundHalfEven_of_near ?_ ?_)).trans ?_
    · norm_num [abs_of_pos]
    · norm_num [abs_of_pos]
    · norm_num
    · norm_num
    · norm_num
  have hF : toFloat (107376330817 / 2147483648) = 6553731 / 131072 := by
    unfold toFloat
    refine (roundToPrec_eq 5 13107462 (by norm_num) ?_ ?_
      (roundHalfEven_of_near ?_ ?_)).trans ?_
    · norm_num [abs_of_pos]
    · norm_num [abs_of_pos]
    · norm_num
    · norm_num
    · norm_num
  unfold delayTimeSamplesSingle
  rw [hdepth, mul_zero, toFloat_zero, lfoOutMappedSingle_flanger_rest (by rw [htype]; decide), hD, hF]

/-- The `float` read head at cursor 50 with that delay and capacity 33334:
the sum `-131 / 131072 + 33334` rounds to 33334, the capacity itself. -/
theorem delayReadHeadSingle_flanger_rest :
    delayReadHeadSingle 50 33334 (6553731 / 131072) = 33334 := by
  have hw : toFloat (50) = 50 := by
    unfold toFloat
    refine (roundToPrec_eq 5 13107200 (by norm_num) ?_ ?_
      (roundHalfEven_of_near ?_ ?_)).trans ?_
    · norm_num [abs_of_pos]
    · norm_num [abs_of_pos]
    · norm_num
    · norm_num
    · norm_num
  have hr : toFloat (50 - 6553731 / 131072) = -131 / 131072 := by
    unfold toFloat
    refine (roundToPrec_eq (-10) (-8585216) (by norm_num) ?_ ?_
      (roundHalfEven_of_near ?_ ?_)).trans ?_
    · norm_num [abs_of_neg]
    · norm_num [abs_of_neg]
    · norm_num
    · norm_num
    · norm_num
  have hl : toFloat (33334) = 33334 := by
    unfold toFloat
    refine (roundToPrec_eq 15 8533504 (by norm_num) ?_ ?_
      (roundHalfEven_of_near ?_ ?_)).trans ?_
    · norm_num [abs_of_pos]
    · norm_num [abs_of_pos]
    · norm_num
    · norm_num
    · norm_num
  have hwrap : toFloat (-131 / 131072 + 33334) = 33334 := by
    unfold toFloat
    refine (roundToPrec_eq 15 8533504 (by norm_num) ?_ ?_
      (roundHalfEven_of_near ?_ ?_)).trans ?_
    · norm_num [abs_of_pos]
    · norm_num [abs_of_pos]
    · norm_num
    · norm_num
    · norm_num
  unfold delayReadHeadSingle
  simp only [Int.cast_ofNat]
  rw [hw, hr, hl, if_pos (by norm_num), hwrap]

/-- The chorus delay time at depth 0 as the `float` operations give it. -/
theorem lfoOutMappedSingle_chorus_rest : lfoOutMappedSingle 0 0 = 1174405 / 67108864 := by
  have hc : toFloat (5 / 1000) = 5368709 / 1073741824 := by
    unfold toFloat
    refine (roundToPrec_eq (-8) 10737418 (by norm_num) ?_ ?_
      (roundHalfEven_of_near ?_ ?_)).trans ?_
    · norm_num [abs_of_pos]
    · norm_num [abs_of_pos]
    · norm_num
    · norm_num
    · norm_num
  have hd : toFloat (30 / 1000) = 16106127 / 536870912 := by
    unfold toFloat
    refine (roundToPrec_eq (-6) 16106127 (by norm_num) ?_ ?_
      (roundHalfEven_of_near ?_ ?_)).trans ?_
    · norm_num [abs_of_pos]
    · norm_num [abs_of_pos]
    · norm_num
    · norm_num
    · norm_num
  have h1 : toFloat (16106127 / 536870912 - 5368709 / 1073741824) = 3355443 / 134217728 := by
    unfold toFloat
    refine (roundToPrec_eq (-6) 13421772 (by norm_num) ?_ ?_
      (roundHalfEven_of_tie_down ?_ ?_)).trans ?_
    · norm_num [abs_of_pos]
    · norm_num [abs_of_pos]
    · norm_num
    · decide
    · norm_num
  have hone : toFloat (0 - -1) = 1 := by
    unfold toFloat
    refine (roundToPrec_eq 0 8388608 (by norm_num) ?_ ?_
      (roundHalfEven_of_near ?_ ?_)).trans ?_
    · norm_num [abs_of_pos]
    · norm_num [abs_of_pos]
    · norm_num
    · norm_num
    · norm_num
  have h3 : toFloat (3355443 / 134217728 * 1) = 3355443 / 134217728 := by
    unfold toFloat
    refine (roundToPrec_eq (-6) 13421772 (by norm_num) ?_ ?_
      (roundHalfEven_of_near ?_ ?_)).trans ?_
    · norm_num [abs_of_pos]
    · norm_num [abs_of_pos]
    · norm_num
    · norm_num
    · norm_num
  have htwo : toFloat (1 - -1) = 2 := by
    unfold toFloat
    refine (roundToPrec_eq 1 8388608 (by norm_num) ?_ ?_
      (roundHalfEven_of_near ?_ ?_)).trans ?_
    · norm_num [abs_of_pos]
    · norm_num [abs_of_pos]
    · norm_num
    · norm_num
    · norm_num
  have h5 : toFloat (3355443 / 134217728 / 2) = 3355443 / 268435456 := by
    unfold toFloat
    refine (roundToPrec_eq (-7) 13421772 (by norm_num) ?_ ?_
      (roundHalfEven_of_near ?_ ?_)).trans ?_
    · norm_num [abs_of_pos]
    · norm_num [abs_of_pos]
    · norm_num
    · norm_num
    · norm_num
  have hm : toFloat (5368709 / 1073741824 + 3355443 / 268435456) = 1174405 / 67108864 := by
    unfold toFloat
    refine (roundToPrec_eq (-6) 9395240 (by norm_num) ?_ ?_
      (roundHalfEven_of_tie_down ?_ ?_)).trans ?_
    · norm_num [abs_of_pos]
    · norm_num [abs_of_pos]
    · norm_num
    · decide
    · norm_num
  unfold lfoOutMappedSingle jmapSingle
  rw [if_pos rfl, hc, hd, h1, hone, h3, htwo, h5, hm]

/-- The chorus delay in samples at depth 0 and 33143 Hz, in `float`. -/
theorem delayTimeSamplesSingle_chorus_rest {p : Params} (v : ℚ)
    (hdepth : p.mDepthParameter = 0) (htype : p.mTypeParameter = 0) :
    delayTimeSamplesSingle 33143 p v = 1187845 / 2048 := by
  have hD : toDouble (33143 * (1174405 / 67108864)) = 38923304915 / 67108864 := by
    unfold toDouble
    refine (roundToPrec_eq 9 5101755421818880 (by norm_num) ?_ ?_
      (roundHalfEven_of_near ?_ ?_)).trans ?_
    · norm_num [abs_of_pos]
    · norm_num [abs_of_pos]
    · norm_num
    · norm_num
    · norm_num
  have hF : toFloat (38923304915 / 67108864) = 1187845 / 2048 := by
    unfold toFloat
    refine (roundToPrec_eq 9 9502760 (by norm_num) ?_ ?_
      (roundHalfEven_of_near ?_ ?_)).trans ?_
    · norm_num [abs_of_pos]
    · norm_num [abs_of_pos]
    · norm_num
    · norm_num
    · norm_num
  unfold delayTimeSamplesSingle
  rw [hdepth, htype, mul_zero, toFloat_zero, lfoOutMappedSingle_chorus_rest, hD, hF]

/-- The `float` read head at cursor 580 with that delay and capacity 66286:
the sum `-5 / 2048 + 66286` rounds to 66286, the capacity itself. -/
theorem delayReadHeadSingle_chorus_rest :
    delayReadHeadSingle 580 66286 (1187845 / 2048) = 66286 := by
  have hw : toFloat (580) = 580 := by
    unfold toFloat
    refine (roundToPrec_eq 9 9502720 (by norm_num) ?_ ?_
      (roundHalfEven_of_near ?_ ?_)).trans ?_
    · norm_num [abs_of_pos]
    · norm_num [abs_of_pos]
    · norm_num
    · norm_num
    · norm_num
  have hr : toFloat (580 - 1187845 / 2048) = -5 / 2048 := by
    unfold toFloat
    refine (roundToPrec_eq (-9) (-10485760) (by norm_num) ?_ ?_
      (roundHalfEven_of_near ?_ ?_)).trans ?_
    · norm_num [abs_of_neg]
    · norm_num [abs_of_neg]
    · norm_num
    · norm_num
    · norm_num
  have hl : toFloat (66286) = 66286 := by
    unfold toFloat
    refine (roundToPrec_eq 16 8484608 (by norm_num) ?_ ?_
      (roundHalfEven_of_near ?_ ?_)).trans ?_
    · norm_num [abs_of_pos]
    · norm_num [abs_of_pos]
    · norm_num
    · norm_num
    · norm_num
  have hwrap : toFloat (-5 / 2048 + 66286) = 66286 := by
    unfold toFloat
    refine (roundToPrec_eq 16 8484608 (by norm_num) ?_ ?_
      (roundHalfEven_of_near ?_ ?_)).trans ?_
    · norm_num [abs_of_pos]
    · norm_num [abs_of_pos]
    · norm_num
    · norm_num
    · norm_num
  unfold delayReadHeadSingle
  simp only [Int.cast_ofNat]
  rw [hw, hr, hl, if_pos (by norm_num), hwrap]

/-! ## Reads past the buffer in single precision -/

theorem readAt_of_ge {buf : List ℚ} {i : Int} (h : (buf.length : Int) ≤ i) :
    readAt buf i = none := by
  unfold readAt
  split_ifs with h0
  · have : buf.length ≤ i.toNat := by omega
    simp [this]
  · rfl

theorem writeAt_length {buf b : List ℚ} {i : Int} {v : ℚ} (h : writeAt buf i v = some b) :
    b.length = buf.length := by
  unfold writeAt at h
  split_ifs at h
  have := Option.some.inj h
  rw [← this, List.length_set]

/-- When the `float` read head of the left channel truncates to the capacity
itself, the read `mCircularBufferLeft[readHeadLeft_x0]` of line 305 is past
the end of the buffer. -/
theorem processSampleSingle_none_of_x0 {M : MathFns} {sr : ℚ} {p : Params} {s : Processor}
    (inL inR : ℚ) (hlen : (s.mCircularBufferLeft.length : Int) = s.mCircularBufferLength)
    (hx0 : readHead_x0 (delayReadHeadLeftSingle M sr p s) = s.mCircularBufferLength) :
    processSampleSingle M sr p s inL inR = none := by
  unfold processSampleSingle
  cases hL : writeAt s.mCircularBufferLeft s.mCircularBufferWriteHead
      (toFloat (inL + s.mFeedbackLeft)) with
  | none => rfl
  | some bufL =>
    cases hR : writeAt s.mCircularBufferRight s.mCircularBufferWriteHead
        (toFloat (inR + s.mFeedbackRight)) with
    | none => rfl
    | some bufR =>
      have hr : readAt bufL (readHead_x0 (delayReadHeadLeftSingle M sr p s)) = none := by
        apply readAt_of_ge
        rw [writeAt_length hL, hlen, hx0]
      simp only [Option.bind_eq_bind, Option.some_bind, hr, Option.none_bind]

theorem flangerAtRest_inRange : flangerAtRest.InRange := by
  norm_num [Params.InRange, flangerAtRest, Params.default]

theorem fixedDelayParams_inRange : fixedDelayParams.InRange := by
  norm_num [Params.InRange, fixedDelayParams, Params.default]

theorem silentAt50_configured (ph : ℚ) : (silentAt50 ph).Configured 16667 := by
  have hcap : truncToInt ((16667 : ℚ) * (MAX_DELAY_TIME : ℚ)) = 33334 := by
    have h : (16667 : ℚ) * (MAX_DELAY_TIME : ℚ) = ((33334 : Nat) : ℚ) := by
      norm_num [MAX_DELAY_TIME]
    rw [h, truncToInt_natCast]; rfl
  refine ⟨?_, ?_, ?_, ?_, ?_, ?_⟩
  · show (1 : Int) ≤ 33334
    decide
  · rw [hcap]; rfl
  · show ((List.replicate 33334 (0 : ℚ)).length : Int) = 33334
    rw [List.length_replicate]; rfl
  · show ((List.replicate 33334 (0 : ℚ)).length : Int) = 33334
    rw [List.length_replicate]; rfl
  · show (0 : Int) ≤ 50
    decide
  · show (50 : Int) < 33334
    decide

theorem impulseAt580_configured (a b ph : ℚ) : (impulseAt580 a b ph).Configured 33143 := by
  have hcap : truncToInt ((33143 : ℚ) * (MAX_DELAY_TIME : ℚ)) = 66286 := by
    have h : (33143 : ℚ) * (MAX_DELAY_TIME : ℚ) = ((66286 : Nat) : ℚ) := by
      norm_num [MAX_DELAY_TIME]
    rw [h, truncToInt_natCast]; rfl
  refine ⟨?_, ?_, ?_, ?_, ?_, ?_⟩
  · show (1 : Int) ≤ 66286
    decide
  · rw [hcap]; rfl
  · show (((a :: List.replicate 66285 (0 : ℚ)).length : Nat) : Int) = 66286
    rw [List.length_cons, List.length_replicate]; rfl
  · show (((b :: List.replicate 66285 (0 : ℚ)).length : Nat) : Int) = 66286
    rw [List.length_cons, List.length_replicate]; rfl
  · show (0 : Int) ≤ 580
    decide
  · show (580 : Int) < 66286
    decide

/-- In exact arithmetic the flanger read head at 16667 Hz, depth 0, cursor 50
is 33333.999 and truncates to 33333, inside the buffer. -/
theorem exact_read_flanger (M : MathFns) (ph : ℚ) :
    readHead_x0 (delayReadHeadLeft M 16667 flangerAtRest (silentAt50 ph)) = 33333 := by
  have hd : ∀ v, delayTimeSamples 16667 flangerAtRest v = 50001 / 1000 := by
    intro v
    simp only [delayTimeSamples, flangerAtRest, lfoOutMapped, jmap_unit, mul_zero]
    norm_num
  have hr : delayReadHead 50 33334 (50001 / 1000) = 33333999 / 1000 := by
    norm_num [delayReadHead]
  unfold delayReadHeadLeft
  rw [hd]
  show readHead_x0 (delayReadHead 50 33334 (50001 / 1000)) = 33333
  rw [hr]
  unfold readHead_x0
  rw [truncToInt_of_nonneg (by norm_num), Int.floor_eq_iff]
  norm_num

theorem ceil_chorusMidDelay_33143 : ⌈chorusMidDelay 33143⌉ = 581 := by
  rw [Int.ceil_eq_iff]
  norm_num [chorusMidDelay]

/-- In exact arithmetic the fixed delay line at 33143 Hz, cursor 580, with the
impulse `(a, b)` in slot 0 returns `0.9975 * (a, b)`: the value C2 states for
sample index 580 (`⌈D⌉ = 581`, `f = 0.9975`). -/
theorem exact_output_chorus (M : MathFns) (a b ph inL inR : ℚ) :
    (processSample M 33143 fixedDelayParams (impulseAt580 a b ph) inL inR).map Prod.snd
      = some (399 / 400 * a, 399 / 400 * b) := by
  have hc := impulseAt580_configured a b ph
  have hD0 : 0 < chorusMidDelay 33143 := by norm_num [chorusMidDelay]
  obtain ⟨hb, hx0, hx1, hfr⟩ := @fixed_read_indices 580 66286 580
    (chorusMidDelay 33143) (by decide) (by decide) hD0
    (by rw [ceil_chorusMidDelay_33143]; decide)
  rw [ceil_chorusMidDelay_33143] at hx0 hx1 hfr
  have e0 : ((580 : Int) - 581) % 66286 = 66285 := by decide
  have e1 : ((580 : Int) - 581 + 1) % 66286 = 0 := by decide
  rw [e0] at hx0
  rw [e1] at hx1
  have hfr' : readHeadFloat (delayReadHead 580 66286 (chorusMidDelay 33143)) = 399 / 400 := by
    rw [hfr]; norm_num [chorusMidDelay]
  have hdL : delayReadHeadLeft M 33143 fixedDelayParams (impulseAt580 a b ph)
      = delayReadHead 580 66286 (chorusMidDelay 33143) := by
    unfold delayReadHeadLeft
    rw [delayTimeSamples_depth_zero _ _ _ rfl rfl]
    rfl
  have hdR : delayReadHeadRight M 33143 fixedDelayParams (impulseAt580 a b ph)
      = delayReadHead 580 66286 (chorusMidDelay 33143) := by
    unfold delayReadHeadRight
    rw [delayTimeSamples_depth_zero _ _ _ rfl rfl]
    rfl
  have hbL : 0 ≤ delayReadHeadLeft M 33143 fixedDelayParams (impulseAt580 a b ph) ∧
      delayReadHeadLeft M 33143 fixedDelayParams (impulseAt580 a b ph)
        < ((impulseAt580 a b ph).mCircularBufferLength : ℚ) := by
    rw [hdL]; exact hb
  have hbR : 0 ≤ delayReadHeadRight M 33143 fixedDelayParams (impulseAt580 a b ph) ∧
      delayReadHeadRight M 33143 fixedDelayParams (impulseAt580 a b ph)
        < ((impulseAt580 a b ph).mCircularBufferLength : ℚ) := by
    rw [hdR]; exact hb
  rw [processSample_eq_of_bounds inL inR hc hbL hbR]
  have hget : ∀ (c v : ℚ),
      ((c :: List.replicate 66285 (0 : ℚ)).set 580 v).getD 66285 0 = 0 ∧
      ((c :: List.replicate 66285 (0 : ℚ)).set 580 v).getD 0 0 = c := by
    intro c v
    have hlt : 580 < (c :: List.replicate 66285 (0 : ℚ)).length := by
      rw [List.length_cons, List.length_replicate]; decide
    constructor
    · rw [getD_set _ _ _ _ hlt, if_neg (by decide),
        show (66285 : Nat) = 66284 + 1 from rfl, List.getD_cons_succ, getD_replicate_zero]
    · rw [getD_set _ _ _ _ hlt, if_neg (by decide), List.getD_cons_zero]
  have hsL : delaySampleLeft M 33143 fixedDelayParams (impulseAt580 a b ph) inL
      = 399 / 400 * a := by
    unfold delaySampleLeft
    rw [hdL]
    show lin_interp
      ((writtenLeft (impulseAt580 a b ph) inL).getD
        (readHead_x0 (delayReadHead 580 66286 (chorusMidDelay 33143))).toNat 0)
      ((writtenLeft (impulseAt580 a b ph) inL).getD
        (readHead_x1 (readHead_x0 (delayReadHead 580 66286 (chorusMidDelay 33143)))
          66286).toNat 0)
      (readHeadFloat (delayReadHead 580 66286 (chorusMidDelay 33143))) = 399 / 400 * a
    rw [hx1, hx0, hfr']
    show lin_interp
      (((a :: List.replicate 66285 (0 : ℚ)).set 580 (inL + 0)).getD 66285 0)
      (((a :: List.replicate 66285 (0 : ℚ)).set 580 (inL + 0)).getD 0 0) (399 / 400)
        = 399 / 400 * a
    rw [(hget a (inL + 0)).1, (hget a (inL + 0)).2]
    simp [lin_interp]
  have hsR : delaySampleRight M 33143 fixedDelayParams (impulseAt580 a b ph) inR
      = 399 / 400 * b := by
    unfold delaySampleRight
    rw [hdR]
    show lin_interp
      ((writtenRight (impulseAt580 a b ph) inR).getD
        (readHead_x0 (delayReadHead 580 66286 (chorusMidDelay 33143))).toNat 0)
      ((writtenRight (impulseAt580 a b ph) inR).getD
        (readHead_x1 (readHead_x0 (delayReadHead 580 66286 (chorusMidDelay 33143)))
          66286).toNat 0)
      (readHeadFloat (delayReadHead 580 66286 (chorusMidDelay 33143))) = 399 / 400 * b
    rw [hx1, hx0, hfr']
    show lin_interp
      (((b :: List.replicate 66285 (0 : ℚ)).set 580 (inR + 0)).getD 66285 0)
      (((b :: List.replicate 66285 (0 : ℚ)).set 580 (inR + 0)).getD 0 0) (399 / 400)
        = 399 / 400 * b
    rw [(hget b (inR + 0)).1, (hget b (inR + 0)).2]
    simp [lin_interp]
  simp only [Option.map_some', sampleOutput, hsL, hsR]
  have hdw : fixedDelayParams.mDryWetParameter = 1 := rfl
  rw [hdw]
  congr 1
  apply Prod.ext <;> simp

/-! ## The LFO phase in single precision -/

theorem roundToPrec_natCast {p : Nat} (m : Nat) (hm : m < 2 ^ p) :
    roundToPrec p (m : ℚ) = (m : ℚ) := by
  rcases Nat.eq_zero_or_pos m with h0 | hpos
  · subst h0; simp [roundToPrec_zero]
  · have := roundToPrec_exact (p := p) m 0 hpos hm
    simpa using this

/-- A multiple `m / 4096` with `m ≤ 4096` is a `float` and a `double`. -/
theorem round_dyadic12 {p : Nat} (hp : 13 ≤ p) (m : Nat) (hm : m ≤ 4096) :
    roundToPrec p ((m : ℚ) / 4096) = (m : ℚ) / 4096 := by
  rcases Nat.eq_zero_or_pos m with h0 | hpos
  · subst h0; simp [roundToPrec_zero]
  · have hlt : m < 2 ^ p :=
      lt_of_le_of_lt hm (lt_of_lt_of_le (by norm_num) (Nat.pow_le_pow_right (by norm_num) hp))
    have e : (m : ℚ) / 4096 = (m : ℚ) * 2 ^ (-12 : Int) := by norm_num [div_eq_mul_inv]
    rw [e]
    exact roundToPrec_exact m (-12) hpos hlt

theorem toDouble_increment_4096 : toDouble ((375 / 32 : ℚ) / 48000) = 1 / 4096 := by
  have e : (375 / 32 : ℚ) / 48000 = ((1 : Nat) : ℚ) / 4096 := by norm_num
  have h := round_dyadic12 (p := 53) (by norm_num) 1 (by norm_num)
  unfold toDouble
  rw [e, h]
  norm_num

/-- At 11.71875 Hz and 48000 Hz the increment is `2 ^ (-12)`: every partial sum
is a `float`, so the `float` accumulator is exact up to 4096 samples. -/
theorem lfoPhaseAfterSingle_dyadic (k : Nat) (hk : k ≤ 4096) :
    lfoPhaseAfterSingle (375 / 32) 48000 k = (k : ℚ) / 4096 := by
  induction k with
  | zero => simp [lfoPhaseAfterSingle]
  | succ n ih =>
    have hinc : toDouble ((375 / 32 : ℚ) / 48000) = ((1 : Nat) : ℚ) / 4096 := by
      have e : (375 / 32 : ℚ) / 48000 = ((1 : Nat) : ℚ) / 4096 := by norm_num
      rw [e]
      exact round_dyadic12 (by norm_num) 1 (by norm_num)
    have hsum : (n : ℚ) / 4096 + ((1 : Nat) : ℚ) / 4096 = ((n + 1 : Nat) : ℚ) / 4096 := by
      push_cast; ring
    have hD : toDouble (((n + 1 : Nat) : ℚ) / 4096) = ((n + 1 : Nat) : ℚ) / 4096 :=
      round_dyadic12 (by norm_num) (n + 1) hk
    have hF : toFloat (((n + 1 : Nat) : ℚ) / 4096) = ((n + 1 : Nat) : ℚ) / 4096 :=
      round_dyadic12 (by norm_num) (n + 1) hk
    have hle : ¬ (((n + 1 : Nat) : ℚ) / 4096 > 1) := by
      have : ((n + 1 : Nat) : ℚ) ≤ 4096 := by exact_mod_cast hk
      rw [not_lt, div_le_one (by norm_num)]
      exact this
    simp only [lfoPhaseAfterSingle, advanceLFOPhaseSingle]
    rw [ih (by omega), hinc, hsum, hD, hF, if_neg hle]

theorem toFloat_natCast (m : Nat) (hm : m < 2 ^ 24) : toFloat (m : ℚ) = (m : ℚ) :=
  roundToPrec_natCast m hm

theorem toDouble_natCast (m : Nat) (hm : m < 2 ^ 53) : toDouble (m : ℚ) = (m : ℚ) :=
  roundToPrec_natCast m hm

/-- At 20 Hz and a sample rate of 10 Hz (ratio 2) the `float` phase is 1 after
one sample and 2 after two. -/
theorem lfoPhaseAfterSingle_ratio_two : lfoPhaseAfterSingle 20 10 2 = 2 := by
  have d2 : toDouble ((20 : ℚ) / 10) = 2 := by
    have e : (20 : ℚ) / 10 = ((2 : Nat) : ℚ) := by norm_num
    rw [e, toDouble_natCast 2 (by norm_num)]; norm_num
  have f1 : toFloat (1 : ℚ) = 1 := by
    have := toFloat_natCast 1 (by norm_num); simpa using this
  have f2 : toFloat (2 : ℚ) = 2 := by
    have := toFloat_natCast 2 (by norm_num); simpa using this
  have f3 : toFloat (3 : ℚ) = 3 := by
    have := toFloat_natCast 3 (by norm_num); simpa using this
  have dd2 : toDouble (2 : ℚ) = 2 := by
    have := toDouble_natCast 2 (by norm_num); simpa using this
  have dd3 : toDouble (3 : ℚ) = 3 := by
    have := toDouble_natCast 3 (by norm_num); simpa using this
  have s1 : lfoPhaseAfterSingle 20 10 1 = 1 := by
    simp only [lfoPhaseAfterSingle, advanceLFOPhaseSingle]
    rw [d2, zero_add, dd2, f2, if_pos (by norm_num)]
    norm_num [f1]
  show advanceLFOPhaseSingle (lfoPhaseAfterSingle 20 10 1) 20 10 = 2
  rw [s1]
  simp only [advanceLFOPhaseSingle]
  rw [d2]
  norm_num [dd3, f3, f2]

theorem advanceLFOPhaseSingle_bounds {ph rate sr : ℚ} (h0 : 0 ≤ ph) (h1 : ph ≤ 1)
    (hr0 : 0 ≤ rate / sr) (hr1 : rate / sr ≤ 1) :
    0 ≤ advanceLFOPhaseSingle ph rate sr ∧ advanceLFOPhaseSingle ph rate sr ≤ 1 := by
  have one : (2 : ℚ) ^ (0 : Int) = 1 := by norm_num
  have two : (2 : ℚ) ^ (1 : Int) = 2 := by norm_num
  have hi0 : 0 ≤ toDouble (rate / sr) := roundToPrec_nonneg hr0
  have hi1 : toDouble (rate / sr) ≤ 1 := by
    have := roundToPrec_le_two_zpow (p := 53) (by norm_num) (x := rate / sr) 0 (by rw [one]; exact hr1)
    rwa [one] at this
  have hs0 : 0 ≤ toDouble (ph + toDouble (rate / sr)) := roundToPrec_nonneg (by linarith)
  have hs1 : toDouble (ph + toDouble (rate / sr)) ≤ 2 := by
    have := roundToPrec_le_two_zpow (p := 53) (by norm_num)
      (x := ph + toDouble (rate / sr)) 1 (by rw [two]; linarith)
    rwa [two] at this
  have hf0 : 0 ≤ toFloat (toDouble (ph + toDouble (rate / sr))) := roundToPrec_nonneg hs0
  have hf1 : toFloat (toDouble (ph + toDouble (rate / sr))) ≤ 2 := by
    have := roundToPrec_le_two_zpow (p := 24) (by norm_num)
      (x := toDouble (ph + toDouble (rate / sr))) 1 (by rw [two]; exact hs1)
    rwa [two] at this
  unfold advanceLFOPhaseSingle
  simp only
  split_ifs with hgt
  · constructor
    · exact roundToPrec_nonneg (by linarith)
    · have := roundToPrec_le_two_zpow (p := 24) (by norm_num)
        (x := toFloat (toDouble (ph + toDouble (rate / sr))) - 1) 0 (by rw [one]; linarith)
      rwa [one] at this
  · exact ⟨hf0, le_of_not_lt hgt⟩

theorem lfoPhaseAfterSingle_bounds {rate sr : ℚ} (hr0 : 0 ≤ rate / sr) (hr1 : rate / sr ≤ 1)
    (n : Nat) : 0 ≤ lfoPhaseAfterSingle rate sr n ∧ lfoPhaseAfterSingle rate sr n ≤ 1 := by
  induction n with
  | zero => simp [lfoPhaseAfterSingle]
  | succ k ih => exact advanceLFOPhaseSingle_bounds ih.1 ih.2 hr0 hr1

/-- C4 (counterexample): at 11.71875 Hz and 48000 Hz, both within range, the
increment is `2 ^ (-12)` and every sum is exact in `float`: after 4095 samples
phase plus increment is exactly 1, the test `> 1` does not fire and the phase
stored after 4096 samples is 1, outside `[0, 1)`, in single precision as in
exact arithmetic. And at a ratio of 2 (20 Hz at a sample rate of 10 Hz) the
phase stored after two samples is 2. -/
theorem lfoPhase_reaches_one :
    lfoPhaseAfterSingle (375 / 32) 48000 4095 + toDouble ((375 / 32 : ℚ) / 48000) = 1 ∧
    lfoPhaseAfterSingle (375 / 32) 48000 4096 = 1 ∧
    ¬ (lfoPhaseAfterSingle (375 / 32) 48000 4096 < 1) ∧
    lfoPhaseAfter (375 / 32) 48000 4096 = 1 ∧
    lfoPhaseAfterSingle 20 10 2 = 2 ∧
    lfoPhaseAfter 20 10 2 = 2 := by
  have hinc := toDouble_increment_4096
  have h1 : lfoPhaseAfterSingle (375 / 32) 48000 4096 = 1 := by
    rw [lfoPhaseAfterSingle_dyadic 4096 (le_refl _)]; norm_num
  have h0 : lfoPhaseAfterSingle (375 / 32) 48000 4095 = 4095 / 4096 := by
    rw [lfoPhaseAfterSingle_dyadic 4095 (by norm_num)]; norm_num
  have hx : lfoPhaseAfter (375 / 32) 48000 4096 = 1 := by
    rw [lfoPhaseAfter_eq_mul (by norm_num) 4096 (by norm_num)]; norm_num
  refine ⟨by rw [h0, hinc]; norm_num, h1, by rw [h1]; norm_num, hx,
    lfoPhaseAfterSingle_ratio_two, ?_⟩
  norm_num [lfoPhaseAfter, advanceLFOPhase]

/-- C4 (amended): for every positive sample rate and every ratio `rate / sr` in
`[0, 1]` the stored phase after any number of advances lies in the closed
interval `[0, 1]`, and in the boundary case where phase plus increment is
exactly 1 the next stored phase is 1 (no wrap); both in single precision, as
the code computes, and in exact arithmetic. -/
theorem lfoPhase_in_closed_unit (rate sr : ℚ) (n : Nat) (_hsr : 0 < sr)
    (h0 : 0 ≤ rate / sr) (h1 : rate / sr ≤ 1) :
    (0 ≤ lfoPhaseAfterSingle rate sr n ∧ lfoPhaseAfterSingle rate sr n ≤ 1) ∧
    (toFloat (toDouble (lfoPhaseAfterSingle rate sr n + toDouble (rate / sr))) = 1 →
      lfoPhaseAfterSingle rate sr (n + 1) = 1) ∧
    (0 ≤ lfoPhaseAfter rate sr n ∧ lfoPhaseAfter rate sr n ≤ 1) ∧
    (lfoPhaseAfter rate sr n + rate / sr = 1 → lfoPhaseAfter rate sr (n + 1) = 1) := by
  refine ⟨lfoPhaseAfterSingle_bounds h0 h1 n, ?_,
    ⟨lfoPhaseAfter_nonneg h0 n, lfoPhaseAfter_le_one h1 n⟩, ?_⟩
  · intro h
    simp [lfoPhaseAfterSingle, advanceLFOPhaseSingle, h]
  · intro h
    simp [lfoPhaseAfter, advanceLFOPhase, h]

/-- The amended phase range at 11.71875 Hz and 48000 Hz: after 4095 samples
phase plus increment is exactly 1, in `float` too, and the next stored phase
is 1. -/
theorem lfoPhase_in_closed_unit_witness :
    (0 ≤ lfoPhaseAfterSingle (375 / 32) 48000 4095 ∧
      lfoPhaseAfterSingle (375 / 32) 48000 4095 ≤ 1) ∧
    lfoPhaseAfterSingle (375 / 32) 48000 (4095 + 1) = 1 ∧
    (0 ≤ lfoPhaseAfter (375 / 32) 48000 4095 ∧ lfoPhaseAfter (375 / 32) 48000 4095 ≤ 1) ∧
    lfoPhaseAfter (375 / 32) 48000 (4095 + 1) = 1 := by
  have h := lfoPhase_in_closed_unit (375 / 32) 48000 4095 (by norm_num) (by norm_num)
    (by norm_num)
  have hinc := toDouble_increment_4096
  have hsum : toFloat (toDouble (lfoPhaseAfterSingle (375 / 32) 48000 4095
      + toDouble ((375 / 32 : ℚ) / 48000))) = 1 := by
    rw [lfoPhaseAfterSingle_dyadic 4095 (by norm_num), hinc]
    have e : ((4095 : Nat) : ℚ) / 4096 + 1 / 4096 = ((1 : Nat) : ℚ) := by norm_num
    rw [e, toDouble_natCast 1 (by norm_num), toFloat_natCast 1 (by norm_num)]
    norm_num
  exact ⟨h.1, h.2.1 hsum, h.2.2.1,
    h.2.2.2 (by rw [lfoPhaseAfter_eq_mul (by norm_num) 4095 (by norm_num)]; norm_num)⟩

/-! ## Whole blocks in single precision -/

/-- A number `m * 2 ^ j` with an integer `m`, `0 < |m| < 2 ^ p`, is
representable with `p` bits. -/
theorem roundToPrec_exact_int {p : Nat} (m : Int) (j : Int) (hm0 : m ≠ 0)
    (hm : m.natAbs < 2 ^ p) : roundToPrec p ((m : ℚ) * 2 ^ j) = (m : ℚ) * 2 ^ j := by
  have hmq : (m : ℚ) ≠ 0 := by exact_mod_cast hm0
  have hx : (m : ℚ) * 2 ^ j ≠ 0 := mul_ne_zero hmq (by positivity)
  have habs : |(m : ℚ) * 2 ^ j| = (m.natAbs : ℚ) * 2 ^ j := by
    rw [abs_mul, abs_of_pos (by positivity : (0 : ℚ) < 2 ^ j)]
    congr 1
    rw [Nat.cast_natAbs, Int.cast_abs]
  have hpos : (0 : ℚ) < (m.natAbs : ℚ) * 2 ^ j := by
    rw [← habs]; exact abs_pos.mpr hx
  have hlt : (m.natAbs : ℚ) * 2 ^ j < (2 : ℚ) ^ ((p : Int) + j) := by
    rw [zpow_add₀ (by norm_num), zpow_natCast]
    have : (m.natAbs : ℚ) < 2 ^ p := by exact_mod_cast hm
    exact mul_lt_mul_of_pos_right this (by positivity)
  have hlog : Int.log 2 ((m.natAbs : ℚ) * 2 ^ j) < (p : Int) + j :=
    (Int.lt_zpow_iff_log_lt (by norm_num) hpos).mp (by exact_mod_cast hlt)
  have hd : 0 ≤ j - (Int.log 2 ((m.natAbs : ℚ) * 2 ^ j) - ((p : Int) - 1)) := by omega
  obtain ⟨d, hd'⟩ := Int.eq_ofNat_of_zero_le hd
  have hj : j = (d : Int) + (Int.log 2 ((m.natAbs : ℚ) * 2 ^ j) - ((p : Int) - 1)) := by omega
  have hu : (0 : ℚ) < 2 ^ (Int.log 2 ((m.natAbs : ℚ) * 2 ^ j) - ((p : Int) - 1)) := by
    positivity
  have hsplit : (m : ℚ) * 2 ^ j = ((m * 2 ^ d : Int) : ℚ)
      * 2 ^ (Int.log 2 ((m.natAbs : ℚ) * 2 ^ j) - ((p : Int) - 1)) := by
    conv_lhs => rw [hj, zpow_add₀ (by norm_num : (2 : ℚ) ≠ 0), zpow_natCast]
    push_cast
    ring
  have hdiv : (m : ℚ) * 2 ^ j / 2 ^ (Int.log 2 ((m.natAbs : ℚ) * 2 ^ j) - ((p : Int) - 1))
      = ((m * 2 ^ d : Int) : ℚ) := by
    rw [div_eq_iff (ne_of_gt hu)]
    exact hsplit
  unfold roundToPrec
  rw [if_neg hx, habs, hdiv, roundHalfEven_intCast]
  exact hsplit.symm

/-- Inside the binade `2 ^ e ≤ x < 2 ^ (e + 1)` rounding keeps `x` between the
grid points that enclose it. -/
theorem roundToPrec_in_binade {p : Nat} {x : ℚ} (e lo hi : Int)
    (h1 : (2 : ℚ) ^ e ≤ x) (h2 : x < (2 : ℚ) ^ (e + 1))
    (hlo : (lo : ℚ) ≤ x / 2 ^ (e - ((p : Int) - 1)))
    (hhi : x / 2 ^ (e - ((p : Int) - 1)) ≤ (hi : ℚ)) :
    (lo : ℚ) * 2 ^ (e - ((p : Int) - 1)) ≤ roundToPrec p x ∧
      roundToPrec p x ≤ (hi : ℚ) * 2 ^ (e - ((p : Int) - 1)) := by
  have hpos : 0 < x := lt_of_lt_of_le (by positivity) h1
  have habs : |x| = x := abs_of_pos hpos
  have hlog : Int.log 2 |x| = e := by rw [habs]; exact log_two_eq hpos h1 h2
  have hu : (0 : ℚ) < 2 ^ (e - ((p : Int) - 1)) := by positivity
  unfold roundToPrec
  rw [if_neg (ne_of_gt hpos), hlog]
  have hA : (lo : ℚ) ≤ (roundHalfEven (x / 2 ^ (e - ((p : Int) - 1))) : ℚ) := by
    exact_mod_cast roundHalfEven_ge hlo
  have hB : (roundHalfEven (x / 2 ^ (e - ((p : Int) - 1))) : ℚ) ≤ (hi : ℚ) := by
    exact_mod_cast roundHalfEven_le hhi
  exact ⟨mul_le_mul_of_nonneg_right hA (le_of_lt hu),
    mul_le_mul_of_nonneg_right hB (le_of_lt hu)⟩

/-- One sample in single precision on a state with `length` slots, a cursor
inside them and both `float` read heads in `[0, length)`: the loop body
returns, keeps the capacity and moves the cursor on. -/
theorem processSampleSingle_some {M : MathFns} {sr : ℚ} {p : Params} {s : Processor}
    {len : Int} (inL inR : ℚ) (hs : s.HasCapacity len)
    (hw0 : 0 ≤ s.mCircularBufferWriteHead) (hw1 : s.mCircularBufferWriteHead < len)
    (hL : 0 ≤ delayReadHeadLeftSingle M sr p s ∧ delayReadHeadLeftSingle M sr p s < (len : ℚ))
    (hR : 0 ≤ delayReadHeadRightSingle M sr p s ∧
      delayReadHeadRightSingle M sr p s < (len : ℚ)) :
    ∃ s' out, processSampleSingle M sr p s inL inR = some (s', out) ∧
      s'.HasCapacity len ∧
      s'.mCircularBufferWriteHead = nextWriteHead s.mCircularBufferWriteHead len := by
  obtain ⟨hlen, hlenL, hlenR⟩ := hs
  obtain ⟨hxl0, hxl1⟩ := readHead_x0_bounds hL.1 hL.2
  obtain ⟨hxr0, hxr1⟩ := readHead_x0_bounds hR.1 hR.2
  obtain ⟨hyl0, hyl1⟩ := readHead_x1_bounds hxl0 hxl1
  obtain ⟨hyr0, hyr1⟩ := readHead_x1_bounds hxr0 hxr1
  have hWL := writeAt_of_lt (toFloat (inL + s.mFeedbackLeft)) hw0 (hlenL ▸ hw1)
  have hWR := writeAt_of_lt (toFloat (inR + s.mFeedbackRight)) hw0 (hlenR ▸ hw1)
  have hlenL' : ((s.mCircularBufferLeft.set s.mCircularBufferWriteHead.toNat
      (toFloat (inL + s.mFeedbackLeft))).length : Int) = len := by
    rw [List.length_set]; exact hlenL
  have hlenR' : ((s.mCircularBufferRight.set s.mCircularBufferWriteHead.toNat
      (toFloat (inR + s.mFeedbackRight))).length : Int) = len := by
    rw [List.length_set]; exact hlenR
  have hRL0 := @readAt_of_lt (s.mCircularBufferLeft.set s.mCircularBufferWriteHead.toNat
    (toFloat (inL + s.mFeedbackLeft))) _ hxl0 (by rw [hlenL']; exact hxl1)
  have hRL1 := @readAt_of_lt (s.mCircularBufferLeft.set s.mCircularBufferWriteHead.toNat
    (toFloat (inL + s.mFeedbackLeft))) _ hyl0 (by rw [hlenL']; exact hyl1)
  have hRR0 := @readAt_of_lt (s.mCircularBufferRight.set s.mCircularBufferWriteHead.toNat
    (toFloat (inR + s.mFeedbackRight))) _ hxr0 (by rw [hlenR']; exact hxr1)
  have hRR1 := @readAt_of_lt (s.mCircularBufferRight.set s.mCircularBufferWriteHead.toNat
    (toFloat (inR + s.mFeedbackRight))) _ hyr0 (by rw [hlenR']; exact hyr1)
  unfold processSampleSingle
  rw [hWL, hWR, hlen]
  simp only [Option.bind_eq_bind, Option.some_bind, Option.pure_def, hRL0, hRL1, hRR0, hRR1]
  exact ⟨_, _, rfl, ⟨rfl, hlenL', hlenR'⟩, rfl⟩

/-- A block long enough to bring the cursor to `K`, where the loop body reads
past the buffer, makes `processBlock` read past the buffer: the samples before
`K` go through and sample `K` does not. -/
theorem processBlockSingle_none_at {M : MathFns} {sr : ℚ} {p : Params} {len : Int} (K : Nat)
    (hstep : ∀ s : Processor, s.HasCapacity len → 0 ≤ s.mCircularBufferWriteHead →
      s.mCircularBufferWriteHead < (K : Int) → ∀ inL inR : ℚ,
      ∃ s' out, processSampleSingle M sr p s inL inR = some (s', out) ∧
        s'.HasCapacity len ∧
        s'.mCircularBufferWriteHead = s.mCircularBufferWriteHead + 1)
    (hfail : ∀ s : Processor, s.HasCapacity len → s.mCircularBufferWriteHead = (K : Int) →
      ∀ inL inR : ℚ, processSampleSingle M sr p s inL inR = none)
    (frames : List (ℚ × ℚ)) :
    ∀ s : Processor, s.HasCapacity len → 0 ≤ s.mCircularBufferWriteHead →
      s.mCircularBufferWriteHead ≤ (K : Int) →
      (K : Int) + 1 ≤ s.mCircularBufferWriteHead + (frames.length : Int) →
      processBlockSingle M sr p s frames = none := by
  induction frames with
  | nil =>
    intro s _ _ hle hlong
    simp only [List.length_nil, Nat.cast_zero, add_zero] at hlong
    omega
  | cons x rest ih =>
    intro s hs hw0 hle hlong
    obtain ⟨inL, inR⟩ := x
    by_cases hat : s.mCircularBufferWriteHead = (K : Int)
    · simp only [processBlockSingle, hfail s hs hat inL inR]
    · obtain ⟨s', out, hrun, hs', hw'⟩ := hstep s hs hw0 (by omega) inL inR
      have hrest := ih s' hs' (by omega) (by omega)
        (by simp only [List.length_cons, Nat.cast_add, Nat.cast_one] at hlong; omega)
      simp only [processBlockSingle, hrun, hrest]

theorem toFloat_intCast (m : Int) (hm : m.natAbs < 2 ^ 24) : toFloat (m : ℚ) = (m : ℚ) := by
  by_cases h0 : m = 0
  · subst h0; simp [toFloat_zero]
  · have := roundToPrec_exact_int (p := 24) m 0 h0 hm
    simpa [toFloat] using this

/-- The `float` read head below the critical cursor: when `w - d` is negative
and exact, and `w - d + length` lies in the binade of exponent `e` at or below
the grid point `hi * 2 ^ (e - 23) < length`, the wrapped read head is in
`[0, length)`. -/
theorem delayReadHeadSingle_below {w len : Int} {d : ℚ} (e hi : Int)
    (hFw : toFloat (w : ℚ) = (w : ℚ)) (hFl : toFloat (len : ℚ) = (len : ℚ))
    (hFr : toFloat ((w : ℚ) - d) = (w : ℚ) - d) (hneg : (w : ℚ) - d < 0)
    (h1 : (2 : ℚ) ^ e ≤ (w : ℚ) - d + (len : ℚ))
    (h2 : (w : ℚ) - d + (len : ℚ) < (2 : ℚ) ^ (e + 1))
    (hhi : ((w : ℚ) - d + (len : ℚ)) / 2 ^ (e - 23) ≤ (hi : ℚ))
    (hgrid : (hi : ℚ) * 2 ^ (e - 23) < (len : ℚ)) :
    0 ≤ delayReadHeadSingle w len d ∧ delayReadHeadSingle w len d < (len : ℚ) := by
  have he : e - (((24 : Nat) : Int) - 1) = e - 23 := by norm_num
  have hu : (0 : ℚ) < 2 ^ (e - 23) := by positivity
  have hx : (0 : ℚ) < (w : ℚ) - d + (len : ℚ) := lt_of_lt_of_le (by positivity) h1
  have hb := roundToPrec_in_binade (p := 24) (x := (w : ℚ) - d + (len : ℚ)) e 0 hi h1 h2
    (by rw [he]; push_cast; exact div_nonneg (le_of_lt hx) (le_of_lt hu))
    (by rw [he]; exact hhi)
  rw [he] at hb
  unfold delayReadHeadSingle
  simp only
  rw [hFw, hFr, if_pos hneg, hFl]
  unfold toFloat
  constructor
  · have := hb.1
    simpa using this
  · exact lt_of_le_of_lt hb.2 hgrid

/-- At 16667 Hz, flanger, depth 0, every cursor below 50 gives a `float` read
head inside the buffer. -/
theorem flanger_head_below (w : Int) (h0 : 0 ≤ w) (h1 : w < 50) :
    0 ≤ delayReadHeadSingle w 33334 (6553731 / 131072) ∧
      delayReadHeadSingle w 33334 (6553731 / 131072) < ((33334 : Int) : ℚ) := by
  have hq0 : (0 : ℚ) ≤ (w : ℚ) := by exact_mod_cast h0
  have hq1 : (w : ℚ) ≤ 49 := by
    have : w ≤ 49 := by omega
    exact_mod_cast this
  have hr : (w : ℚ) - 6553731 / 131072
      = ((w * 131072 - 6553731 : Int) : ℚ) * 2 ^ (-17 : Int) := by
    push_cast; norm_num; ring
  refine delayReadHeadSingle_below 15 8533248 (toFloat_intCast w (by omega))
    (toFloat_intCast 33334 (by decide)) ?_ (by linarith) ?_ ?_ ?_ ?_
  · rw [hr]
    exact roundToPrec_exact_int _ _ (by omega) (by omega)
  · push_cast; norm_num; linarith
  · push_cast; norm_num; linarith
  · push_cast; norm_num; linarith
  · push_cast; norm_num

/-- At 33143 Hz, chorus, depth 0, every cursor below 580 gives a `float` read
head inside the buffer. -/
theorem chorus_head_below (w : Int) (h0 : 0 ≤ w) (h1 : w < 580) :
    0 ≤ delayReadHeadSingle w 66286 (1187845 / 2048) ∧
      delayReadHeadSingle w 66286 (1187845 / 2048) < ((66286 : Int) : ℚ) := by
  have hq0 : (0 : ℚ) ≤ (w : ℚ) := by exact_mod_cast h0
  have hq1 : (w : ℚ) ≤ 579 := by
    have : w ≤ 579 := by omega
    exact_mod_cast this
  have hr : (w : ℚ) - 1187845 / 2048
      = ((w * 2048 - 1187845 : Int) : ℚ) * 2 ^ (-11 : Int) := by
    push_cast; norm_num; ring
  refine delayReadHeadSingle_below 16 8484480 (toFloat_intCast w (by omega))
    (toFloat_intCast 66286 (by decide)) ?_ (by linarith) ?_ ?_ ?_ ?_
  · rw [hr]
    exact roundToPrec_exact_int _ _ (by omega) (by omega)
  · push_cast; norm_num; linarith
  · push_cast; norm_num; linarith
  · push_cast; norm_num; linarith
  · push_cast; norm_num

/-! ## The two runs that read past the buffer -/

theorem nextWriteHead_succ {w len : Int} (h : w + 1 < len) : nextWriteHead w len = w + 1 := by
  unfold nextWriteHead
  rw [if_neg (by omega)]

theorem readHead_x0_intCast_nat (n : Nat) : readHead_x0 ((n : Int) : ℚ) = (n : Int) := by
  unfold readHead_x0
  exact_mod_cast truncToInt_natCast n

theorem freshAt16667_hasCapacity : freshAt16667.HasCapacity 33334 := by
  refine ⟨rfl, ?_, ?_⟩
  · show ((List.replicate 33334 (0 : ℚ)).length : Int) = 33334
    rw [List.length_replicate]; rfl
  · show ((List.replicate 33334 (0 : ℚ)).length : Int) = 33334
    rw [List.length_replicate]; rfl

theorem freshAt33143_hasCapacity : freshAt33143.HasCapacity 66286 := by
  refine ⟨rfl, ?_, ?_⟩
  · show ((List.replicate 66286 (0 : ℚ)).length : Int) = 66286
    rw [List.length_replicate]; rfl
  · show ((List.replicate 66286 (0 : ℚ)).length : Int) = 66286
    rw [List.length_replicate]; rfl

theorem prepareToPlay_at_16667 :
    prepareToPlay 16667 512 Processor.constructed = some freshAt16667 := by
  have hcap : truncToInt ((16667 : ℚ) * (MAX_DELAY_TIME : ℚ)) = 33334 := by
    have h : (16667 : ℚ) * (MAX_DELAY_TIME : ℚ) = ((33334 : Nat) : ℚ) := by
      norm_num [MAX_DELAY_TIME]
    rw [h, truncToInt_natCast]; rfl
  have hprep := @prepareToPlay_of_trunc 16667 512 Processor.constructed
    (by rw [hcap]; decide) (by rw [hcap]; decide)
  rw [hcap] at hprep
  have h : (33334 : Int).toNat = 33334 := by decide
  rw [h] at hprep
  exact hprep

theorem prepareToPlay_at_33143 :
    prepareToPlay 33143 512 Processor.constructed = some freshAt33143 := by
  have hcap : truncToInt ((33143 : ℚ) * (MAX_DELAY_TIME : ℚ)) = 66286 := by
    have h : (33143 : ℚ) * (MAX_DELAY_TIME : ℚ) = ((66286 : Nat) : ℚ) := by
      norm_num [MAX_DELAY_TIME]
    rw [h, truncToInt_natCast]; rfl
  have hprep := @prepareToPlay_of_trunc 33143 512 Processor.constructed
    (by rw [hcap]; decide) (by rw [hcap]; decide)
  rw [hcap] at hprep
  have h : (66286 : Int).toNat = 66286 := by decide
  rw [h] at hprep
  exact hprep

/-- At depth 0 both `float` read heads are the read head of the constant
delay of the flanger setting at 16667 Hz. -/
theorem flanger_heads {M : MathFns} {p : Params} (s : Processor)
    (hdepth : p.mDepthParameter = 0) (htype : p.mTypeParameter = 1) :
    delayReadHeadLeftSingle M 16667 p s
        = delayReadHeadSingle s.mCircularBufferWriteHead s.mCircularBufferLength
            (6553731 / 131072) ∧
    delayReadHeadRightSingle M 16667 p s
        = delayReadHeadSingle s.mCircularBufferWriteHead s.mCircularBufferLength
            (6553731 / 131072) := by
  unfold delayReadHeadLeftSingle delayReadHeadRightSingle
  rw [delayTimeSamplesSingle_flanger_rest _ hdepth htype,
    delayTimeSamplesSingle_flanger_rest _ hdepth htype]
  exact ⟨rfl, rfl⟩

/-- At depth 0 both `float` read heads are the read head of the constant
delay of the chorus setting at 33143 Hz. -/
theorem chorus_heads {M : MathFns} {p : Params} (s : Processor)
    (hdepth : p.mDepthParameter = 0) (htype : p.mTypeParameter = 0) :
    delayReadHeadLeftSingle M 33143 p s
        = delayReadHeadSingle s.mCircularBufferWriteHead s.mCircularBufferLength
            (1187845 / 2048) ∧
    delayReadHeadRightSingle M 33143 p s
        = delayReadHeadSingle s.mCircularBufferWriteHead s.mCircularBufferLength
            (1187845 / 2048) := by
  unfold delayReadHeadLeftSingle delayReadHeadRightSingle
  rw [delayTimeSamplesSingle_chorus_rest _ hdepth htype,
    delayTimeSamplesSingle_chorus_rest _ hdepth htype]
  exact ⟨rfl, rfl⟩

/-- At 16667 Hz, flanger, depth 0, a block of at least 51 samples makes
`processBlock` read past the buffer: samples 0 to 49 go through and sample 50
reads `mCircularBufferLeft[33334]`. -/
theorem processBlockSingle_flanger_none (M : MathFns) {p : Params}
    (hdepth : p.mDepthParameter = 0) (htype : p.mTypeParameter = 1)
    (frames : List (ℚ × ℚ)) (hlong : 51 ≤ frames.length) :
    processBlockSingle M 16667 p freshAt16667 frames = none := by
  refine @processBlockSingle_none_at M 16667 p 33334 50 ?_ ?_ frames freshAt16667
    freshAt16667_hasCapacity (le_refl _) (by decide) ?_
  · intro s hs hw0 hw1 inL inR
    obtain ⟨hl, hr⟩ := flanger_heads (M := M) s hdepth htype
    rw [hs.1] at hl hr
    have hb := flanger_head_below s.mCircularBufferWriteHead hw0 (by exact_mod_cast hw1)
    obtain ⟨s', out, hrun, hs', hw'⟩ := processSampleSingle_some (M := M) (p := p) inL inR hs
      hw0 (by have : ((50 : Nat) : Int) = 50 := rfl; omega) (hl ▸ hb) (hr ▸ hb)
    refine ⟨s', out, hrun, hs', ?_⟩
    rw [hw', nextWriteHead_succ (by have : ((50 : Nat) : Int) = 50 := rfl; omega)]
  · intro s hs hw inL inR
    apply processSampleSingle_none_of_x0 inL inR (hs.2.1.trans hs.1.symm)
    rw [(flanger_heads (M := M) s hdepth htype).1, hs.1, hw]
    show readHead_x0 (delayReadHeadSingle 50 33334 (6553731 / 131072)) = 33334
    rw [delayReadHeadSingle_flanger_rest]
    exact_mod_cast readHead_x0_intCast_nat 33334
  · show ((50 : Nat) : Int) + 1 ≤ 0 + (frames.length : Int)
    have : (51 : Int) ≤ (frames.length : Int) := by exact_mod_cast hlong
    have h50 : ((50 : Nat) : Int) = 50 := rfl
    omega

/-- At 33143 Hz, chorus, depth 0, a block of at least 581 samples makes
`processBlock` read past the buffer: samples 0 to 579 go through and sample
580 reads `mCircularBufferLeft[66286]`. -/
theorem processBlockSingle_chorus_none (M : MathFns) {p : Params}
    (hdepth : p.mDepthParameter = 0) (htype : p.mTypeParameter = 0)
    (frames : List (ℚ × ℚ)) (hlong : 581 ≤ frames.length) :
    processBlockSingle M 33143 p freshAt33143 frames = none := by
  refine @processBlockSingle_none_at M 33143 p 66286 580 ?_ ?_ frames freshAt33143
    freshAt33143_hasCapacity (le_refl _) (by decide) ?_
  · intro s hs hw0 hw1 inL inR
    obtain ⟨hl, hr⟩ := chorus_heads (M := M) s hdepth htype
    rw [hs.1] at hl hr
    have hb := chorus_head_below s.mCircularBufferWriteHead hw0 (by exact_mod_cast hw1)
    obtain ⟨s', out, hrun, hs', hw'⟩ := processSampleSingle_some (M := M) (p := p) inL inR hs
      hw0 (by have : ((580 : Nat) : Int) = 580 := rfl; omega) (hl ▸ hb) (hr ▸ hb)
    refine ⟨s', out, hrun, hs', ?_⟩
    rw [hw', nextWriteHead_succ (by have : ((580 : Nat) : Int) = 580 := rfl; omega)]
  · intro s hs hw inL inR
    apply processSampleSingle_none_of_x0 inL inR (hs.2.1.trans hs.1.symm)
    rw [(chorus_heads (M := M) s hdepth htype).1, hs.1, hw]
    show readHead_x0 (delayReadHeadSingle 580 66286 (1187845 / 2048)) = 66286
    rw [delayReadHeadSingle_chorus_rest]
    exact_mod_cast readHead_x0_intCast_nat 66286
  · show ((580 : Nat) : Int) + 1 ≤ 0 + (frames.length : Int)
    have : (581 : Int) ≤ (frames.length : Int) := by exact_mod_cast hlong
    have h580 : ((580 : Nat) : Int) = 580 := rfl
    omega

/-- C11 (failing input): `prepareToPlay` at 16667 Hz (capacity 33334), then
`processBlock` on 51 samples with flanger, depth 0, all within the claim's
ranges. At sample 50 (cursor 50) the `float` operations of lines 254-277 give
the read head `-131/131072 + 33334`, which rounds to 33334: the wrapped read
position and the index `x0` are the capacity itself, and the read of line 305
is past the end of the buffer. In exact arithmetic the same index is 33333. -/
theorem read_past_buffer_flanger (M : MathFns) (ph : ℚ) :
    prepareToPlay 16667 512 Processor.constructed = some freshAt16667 ∧
    flangerAtRest.InRange ∧
    processBlockSingle M 16667 flangerAtRest freshAt16667 (List.replicate 51 (0, 0)) = none ∧
    (silentAt50 ph).Configured 16667 ∧
    delayReadHeadLeftSingle M 16667 flangerAtRest (silentAt50 ph) = 33334 ∧
    readHead_x0 (delayReadHeadLeftSingle M 16667 flangerAtRest (silentAt50 ph))
      = (silentAt50 ph).mCircularBufferLength ∧
    readHead_x0 (delayReadHeadLeft M 16667 flangerAtRest (silentAt50 ph)) = 33333 := by
  have hh : delayReadHeadLeftSingle M 16667 flangerAtRest (silentAt50 ph) = 33334 := by
    rw [(flanger_heads (M := M) (silentAt50 ph) rfl rfl).1]
    exact delayReadHeadSingle_flanger_rest
  have hx : readHead_x0 (delayReadHeadLeftSingle M 16667 flangerAtRest (silentAt50 ph))
      = (silentAt50 ph).mCircularBufferLength := by
    rw [hh]
    exact_mod_cast readHead_x0_intCast_nat 33334
  refine ⟨prepareToPlay_at_16667, flangerAtRest_inRange, ?_, silentAt50_configured ph, hh, hx,
    exact_read_flanger M ph⟩
  exact processBlockSingle_flanger_none M rfl rfl _ (by rw [List.length_replicate])

/-- C2 (failing input): `prepareToPlay` at 33143 Hz (capacity 66286), then
`processBlock` with dry/wet 1, depth 0, feedback 0, chorus on an impulse
followed by 580 samples of silence. At sample index 580 the `float` operations
of lines 254-277 give the delay 580.00244 and the read head
`-5/2048 + 66286`, which rounds to 66286: the index `x0` is the capacity
itself and the read of line 305 is past the end of the buffer. In exact
arithmetic the block goes through and the output at index 580 is 0.9975
times the impulse. -/
theorem read_past_buffer_chorus (M : MathFns) (ph : ℚ) :
    prepareToPlay 33143 512 Processor.constructed = some freshAt33143 ∧
    fixedDelayParams.InRange ∧
    processBlockSingle M 33143 fixedDelayParams freshAt33143
      ((1, 1) :: List.replicate 580 (0, 0)) = none ∧
    delayReadHeadLeftSingle M 33143 fixedDelayParams (impulseAt580 1 1 ph) = 66286 ∧
    readHead_x0 (delayReadHeadLeftSingle M 33143 fixedDelayParams (impulseAt580 1 1 ph))
      = (impulseAt580 1 1 ph).mCircularBufferLength ∧
    (∃ s' outs, processBlock M 33143 fixedDelayParams freshAt33143
        ((1, 1) :: List.replicate 580 (0, 0)) = some (s', outs) ∧
      outs.getD 580 (0, 0) = (399 / 400, 399 / 400)) := by
  have hh : delayReadHeadLeftSingle M 33143 fixedDelayParams (impulseAt580 1 1 ph)
      = 66286 := by
    rw [(chorus_heads (M := M) (impulseAt580 1 1 ph) rfl rfl).1]
    exact delayReadHeadSingle_chorus_rest
  have hx : readHead_x0
      (delayReadHeadLeftSingle M 33143 fixedDelayParams (impulseAt580 1 1 ph))
      = (impulseAt580 1 1 ph).mCircularBufferLength := by
    rw [hh]
    exact_mod_cast readHead_x0_intCast_nat 66286
  have hlen : ((1, 1) :: List.replicate 580 ((0 : ℚ), (0 : ℚ))).length = 581 := by
    rw [List.length_cons, List.length_replicate]
  refine ⟨prepareToPlay_at_33143, fixedDelayParams_inRange, ?_, hh, hx, ?_⟩
  · exact processBlockSingle_chorus_none M rfl rfl _ (by rw [hlen])
  · obtain ⟨s', outs, hrun, _, hout, _⟩ :=
      fixed_delay_line M 33143 512 fixedDelayParams Processor.constructed freshAt33143
        ((1, 1) :: List.replicate 580 (0, 0)) ⟨rfl, rfl⟩ prepareToPlay_at_33143
        rfl rfl rfl rfl (by rw [ceil_chorusMidDelay_33143]; decide)
    refine ⟨s', outs, hrun, ?_⟩
    rw [hout 580 (by rw [hlen]; decide)]
    simp only [fixedDelayOutput, ceil_chorusMidDelay_33143]
    have e1 : inputAt ((1, 1) :: List.replicate 580 ((0 : ℚ), (0 : ℚ)))
        (((580 : Nat) : Int) - 581) = (0, 0) := by
      unfold inputAt
      rw [if_pos (by decide)]
    have e2 : inputAt ((1, 1) :: List.replicate 580 ((0 : ℚ), (0 : ℚ)))
        (((580 : Nat) : Int) - 581 + 1) = (1, 1) := by
      unfold inputAt
      rw [if_neg (by decide)]
      rfl
    rw [e1, e2]
    norm_num [chorusMidDelay]

end KadenzeChorusFlanger
